import Mathlib

/-
Batteries marks the `Rat` arithmetic operations `@[irreducible]`, which
blocks `decide`-style kernel evaluation of concrete rational computations.
Downgrading them to `semireducible` only changes elaborator unfolding
behaviour; kernel-checked proofs and their axioms are unaffected.
-/
set_option allowUnsafeReducibility true in
attribute [semireducible] Rat.mul Rat.add Rat.sub Rat.div Rat.inv Rat.neg Rat.ofScientific Rat.blt

/-!
Shallow embedding of the curve-extraction core of the ESpice repository
(file `backup-20250804-150633/apps/desktop/src-tauri/src/curve_extraction.rs`).

Modelling conventions:

* Rust `f32`/`f64` arithmetic is modelled by exact rational arithmetic (`ℚ`).
  Every decision proved below (hue-range membership, thresholds, ordering)
  holds with margins far larger than floating-point rounding error.
* The transcendental functions `f64::ln` and `f64::exp`, used only in the
  logarithmic branch of the coordinate mapper, are passed as explicit
  function parameters `lnF expF : ℚ → ℚ`; no theorem below depends on their
  values.
* Rust `Vec<bool>` masks are represented as natural-number bitsets: bit `i`
  of the number is entry `i` of the vector (`Nat.testBit`).
* `std::collections::HashMap` has no fixed iteration order (its hasher is
  randomly seeded); wherever the source iterates over a map, the embedding
  takes the iteration order as an explicit parameter (an association list,
  or a reordering function applied to the insertion-ordered association
  list).  `HashMap::get` is modelled by association-list lookup.
* Image decoding (`image::load_from_memory`) is an external library call;
  the embedding starts from the decoded RGB raster (`RgbImage`).
-/

/-- Truncation toward zero, the behaviour of Rust float-to-int casts and of
the implicit truncation inside the float remainder operator. -/
def ratTrunc (q : ℚ) : ℤ := if 0 ≤ q then ⌊q⌋ else -⌊-q⌋

/-- Rust's `%` on floats: the remainder `a - b * trunc (a / b)`, which keeps
the sign of the dividend (it is not a true modulus). -/
def rustRem (a b : ℚ) : ℚ := a - b * (ratTrunc (a / b) : ℚ)

/-- Rust's `f64::round`: round to the nearest integer, ties away from zero. -/
def rustRound (q : ℚ) : ℤ := if 0 ≤ q then ⌊q + 1/2⌋ else ⌈q - 1/2⌉

/-- `GraphConfig` from the source (axis ranges, scale factors, scale types). -/
structure GraphConfig where
  x_min : ℚ
  x_max : ℚ
  y_min : ℚ
  y_max : ℚ
  x_scale : ℚ
  y_scale : ℚ
  x_scale_type : String
  y_scale_type : String
  graph_type : String
  x_axis_name : Option String
  y_axis_name : Option String
deriving DecidableEq, Repr

/-- `ColorRange` from the source; `lower`/`upper` are the `[u8; 3]` HSV
bounds, `tolerance` the extra multiplicative tolerance on S and V. -/
structure ColorRange where
  lower : ℕ × ℕ × ℕ
  upper : ℕ × ℕ × ℕ
  display_color : String
  base_color : String
  tolerance : ℚ
deriving DecidableEq, Repr

/-- `HSV` record of the source. -/
structure HSV where
  h : ℚ
  s : ℚ
  v : ℚ
deriving DecidableEq, Repr

/-- `DetectedColor` from the source. -/
structure DetectedColor where
  name : String
  display_name : Option String
  color : String
  pixel_count : ℕ
  hsv : Option HSV
  confidence : Option ℚ
deriving DecidableEq, Repr

/-- `CurvePoint` from the source. -/
structure CurvePoint where
  x : ℚ
  y : ℚ
  label : Option String
  confidence : Option ℚ
deriving DecidableEq, Repr

/-- `CurveMetadata` from the source. -/
structure CurveMetadata where
  min_x : Option ℚ
  max_x : Option ℚ
  min_y : Option ℚ
  max_y : Option ℚ
  average_slope : Option ℚ
deriving DecidableEq, Repr

/-- `CurveData` from the source. -/
structure CurveData where
  name : String
  color : String
  points : List CurvePoint
  representation : Option String
  point_count : Option ℕ
  metadata : Option CurveMetadata
deriving DecidableEq, Repr

/-- `ExtractionMetadata` from the source. -/
structure ExtractionMetadata where
  image_width : Option ℕ
  image_height : Option ℕ
  detected_colors : Option ℕ
  extraction_method : Option String
  quality_score : Option ℚ
deriving DecidableEq, Repr

/-- `ExtractionResult` from the source. -/
structure ExtractionResult where
  success : Bool
  curves : List CurveData
  total_points : ℕ
  processing_time : ℚ
  error : Option String
  metadata : Option ExtractionMetadata
deriving DecidableEq, Repr

/-- The decoded 8-bit RGB raster (`image::RgbImage`): row-major pixel list
of `(r, g, b)` byte triples.  Decoding itself is outside the embedded core. -/
structure RgbImage where
  width : ℕ
  height : ℕ
  pixels : List (ℕ × ℕ × ℕ)
deriving DecidableEq, Repr

/-- The palette entry inserted under key "red". -/
def rangeRed : ColorRange :=
  { lower := (0, 120, 100), upper := (15, 255, 255),
    display_color := "#FF0000", base_color := "red", tolerance := 12/100 }

/-- The palette entry inserted under key "red2" (intended to catch the hue
wraparound near 360 degrees). -/
def rangeRed2 : ColorRange :=
  { lower := (165, 120, 100), upper := (180, 255, 255),
    display_color := "#FF0000", base_color := "red", tolerance := 12/100 }

/-- The palette entry inserted under key "blue". -/
def rangeBlue : ColorRange :=
  { lower := (85, 120, 100), upper := (135, 255, 255),
    display_color := "#0000FF", base_color := "blue", tolerance := 10/100 }

/-- The palette entry inserted under key "green". -/
def rangeGreen : ColorRange :=
  { lower := (35, 120, 100), upper := (85, 255, 255),
    display_color := "#00FF00", base_color := "green", tolerance := 15/100 }

/-- The palette entry inserted under key "yellow". -/
def rangeYellow : ColorRange :=
  { lower := (10, 120, 100), upper := (45, 255, 255),
    display_color := "#FFFF00", base_color := "yellow", tolerance := 18/100 }

/-- The palette entry inserted under key "cyan". -/
def rangeCyan : ColorRange :=
  { lower := (75, 120, 100), upper := (105, 255, 255),
    display_color := "#00FFFF", base_color := "cyan", tolerance := 12/100 }

/-- The palette entry inserted under key "magenta". -/
def rangeMagenta : ColorRange :=
  { lower := (135, 120, 100), upper := (175, 255, 255),
    display_color := "#FF00FF", base_color := "magenta", tolerance := 15/100 }

/-- The palette entry inserted under key "orange". -/
def rangeOrange : ColorRange :=
  { lower := (3, 120, 100), upper := (25, 255, 255),
    display_color := "#FFA500", base_color := "orange", tolerance := 20/100 }

/-- The palette entry inserted under key "purple". -/
def rangePurple : ColorRange :=
  { lower := (120, 120, 100), upper := (150, 255, 255),
    display_color := "#800080", base_color := "purple", tolerance := 15/100 }

/-- `get_color_ranges` from the source: the fixed palette, as an association
list in the source's insertion order.  The source stores it in a `HashMap`;
iteration order over that map is taken as a parameter wherever it matters. -/
def get_color_ranges : List (String × ColorRange) :=
  [ ("red", rangeRed), ("red2", rangeRed2), ("blue", rangeBlue),
    ("green", rangeGreen), ("yellow", rangeYellow), ("cyan", rangeCyan),
    ("magenta", rangeMagenta), ("orange", rangeOrange), ("purple", rangePurple) ]

/-- Rust's `f32::max` on ordinary (non-NaN) values.  Written with an
explicit comparison so that it evaluates inside the kernel. -/
def fmax (a b : ℚ) : ℚ := if a ≤ b then b else a

/-- Rust's `f32::min` on ordinary (non-NaN) values. -/
def fmin (a b : ℚ) : ℚ := if a ≤ b then a else b

/-- `rgb_to_hsv` from the source.  Channels are `u8` values; the division by
255 and all comparisons are the source's `f32` operations, modelled exactly
over `ℚ`.  Rust's float `%` is `rustRem` (sign of the dividend), so the hue
may be negative when `g < b` and red is the maximal channel. -/
def rgb_to_hsv (r g b : ℕ) : ℚ × ℚ × ℚ :=
  let r' : ℚ := (r : ℚ) / 255
  let g' : ℚ := (g : ℚ) / 255
  let b' : ℚ := (b : ℚ) / 255
  let mx := fmax r' (fmax g' b')
  let mn := fmin r' (fmin g' b')
  let delta := mx - mn
  let h : ℚ :=
    if delta = 0 then 0
    else if mx = r' then 60 * rustRem ((g' - b') / delta) 6
    else if mx = g' then 60 * (((b' - r') / delta) + 2)
    else 60 * (((r' - g') / delta) + 4)
  let s : ℚ := if mx = 0 then 0 else delta / mx
  (h, s, mx)

/-- `color_matches_range` from the source: hue compared on the halved
(0..180) axis with a wraparound branch when `lower > upper`, saturation and
value compared against tolerance-widened byte bounds. -/
def color_matches_range (h s v : ℚ) (range : ColorRange) : Bool :=
  let h_normalized := h / 2
  let h_match : Bool :=
    if range.upper.1 < range.lower.1 then
      decide ((range.lower.1 : ℚ) ≤ h_normalized) || decide (h_normalized ≤ (range.upper.1 : ℚ))
    else
      decide ((range.lower.1 : ℚ) ≤ h_normalized) && decide (h_normalized ≤ (range.upper.1 : ℚ))
  let s_match : Bool :=
    decide ((range.lower.2.1 : ℚ) * (1 - range.tolerance) ≤ s * 255) &&
      decide (s * 255 ≤ (range.upper.2.1 : ℚ) * (1 + range.tolerance))
  let v_match : Bool :=
    decide ((range.lower.2.2 : ℚ) * (1 - range.tolerance) ≤ v * 255) &&
      decide (v * 255 ≤ (range.upper.2.2 : ℚ) * (1 + range.tolerance))
  h_match && s_match && v_match

/-- `create_color_mask` from the source: one boolean per pixel, in raster
order. -/
def create_color_mask (image : RgbImage) (range : ColorRange) : List Bool :=
  image.pixels.map fun p =>
    let hsv := rgb_to_hsv p.1 p.2.1 p.2.2
    color_matches_range hsv.1 hsv.2.1 hsv.2.2 range

/-- The bitset of a boolean vector: bit `lo + i` of the result is `f (lo + i)`
for `i < n`.  `Vec<bool>` values are modelled as the bitset of their true
indices; this builder is divide-and-conquer so that kernel evaluation has
logarithmic depth.  The fuel argument only bounds the halving recursion;
`2 ^ fuel ≥ n` always holds at use sites. -/
def bitsOfFnAux : ℕ → (ℕ → Bool) → ℕ → ℕ → ℕ
  | _, _, _, 0 => 0
  | _, f, lo, 1 => if f lo then 1 else 0
  | 0, _, _, _ + 2 => 0
  | fuel + 1, f, lo, n =>
      let m := n / 2
      bitsOfFnAux fuel f lo m + 2 ^ m * bitsOfFnAux fuel f (lo + m) (n - m)

/-- Bitset of the length-`n` boolean vector whose entry `i` is `f i`.  The
fuel `n` suffices because the halving recursion needs at most `log₂ n`
levels (`n ≤ 2 ^ n`). -/
def bitsOfFn (n : ℕ) (f : ℕ → Bool) : ℕ := bitsOfFnAux n f 0 n

/-- The color mask of `create_color_mask`, as a bitset indexed by pixel
position (entry `i` of the `Vec<bool>` is bit `i`). -/
def maskBits (image : RgbImage) (range : ColorRange) : ℕ :=
  bitsOfFn (image.width * image.height) fun i =>
    (create_color_mask image range).getD i false

/-- The 3×3 neighbourhood offsets `(dy, dx)` in the source's loop order. -/
def offs9 : List (ℤ × ℤ) :=
  [(-1, -1), (-1, 0), (-1, 1), (0, -1), (0, 0), (0, 1), (1, -1), (1, 0), (1, 1)]

/-- Index of the neighbour of `(x, y)` at offset `o`, as the source computes
it: `(y as i32 + dy) as usize * width + (x as i32 + dx) as usize`. -/
def nIdx (w : ℕ) (x y : ℕ) (o : ℤ × ℤ) : ℕ :=
  ((y : ℤ) + o.1).toNat * w + ((x : ℤ) + o.2).toNat

/-- The erosion pass of `morphological_open` (source lines 281-304): an
interior pixel survives iff all 9 neighbours are true and at least 6
neighbours are true; border pixels (width 1) stay false. -/
def erodeBits (m : ℕ) (w h : ℕ) : ℕ :=
  bitsOfFn (w * h) fun idx =>
    let x := idx % w
    let y := idx / w
    if 1 ≤ x ∧ x + 1 < w ∧ 1 ≤ y ∧ y + 1 < h then
      (offs9.all fun o => m.testBit (nIdx w x y o)) &&
        decide (6 ≤ offs9.countP fun o => m.testBit (nIdx w x y o))
    else false

/-- The dilation pass of `morphological_open` (source lines 307-329): an
interior pixel survives iff any of its 9 neighbours is true in the eroded
mask; border pixels stay false. -/
def dilateBits (m : ℕ) (w h : ℕ) : ℕ :=
  bitsOfFn (w * h) fun idx =>
    let x := idx % w
    let y := idx / w
    if 1 ≤ x ∧ x + 1 < w ∧ 1 ≤ y ∧ y + 1 < h then
      offs9.any fun o => m.testBit (nIdx w x y o)
    else false

/-- `morphological_open` from the source: erosion followed by dilation. -/
def morphological_open (m : ℕ) (w h : ℕ) : ℕ := dilateBits (erodeBits m w h) w h

/-- The 8 neighbour offsets `(dy, dx)` pushed by the component search, in
the source's loop order (the `(0,0)` offset is skipped). -/
def offs8 : List (ℤ × ℤ) :=
  [(-1, -1), (-1, 0), (-1, 1), (0, -1), (0, 1), (1, -1), (1, 0), (1, 1)]

/-- In-bounds neighbours of `(cx, cy)` in push order (source lines 356-365). -/
def neighborsOf (w h : ℕ) (cx cy : ℕ) : List (ℕ × ℕ) :=
  offs8.filterMap fun o =>
    let nx : ℤ := (cx : ℤ) + o.2
    let ny : ℤ := (cy : ℤ) + o.1
    if 0 ≤ nx ∧ nx < (w : ℤ) ∧ 0 ≤ ny ∧ ny < (h : ℤ) then
      some (nx.toNat, ny.toNat)
    else none

/-- The stack-based depth-first search of `filter_connected_components`
(source lines 344-366).  The stack's head is its top; pushing the neighbour
list means prepending it reversed, so pops come in the source's order.
`visited` is a bitset, `comp` the component's indices in visit order.
The fuel argument makes the `while` loop structural; callers pass fuel
`9 * w * h + 9`, which is never exhausted (each pop consumes one unit, and
there are at most `1 + 8·w·h` pushes in total). -/
def dfsLoop (m : ℕ) (w h : ℕ) :
    ℕ → List (ℕ × ℕ) → ℕ → List ℕ → ℕ × List ℕ
  | _, [], visited, comp => (visited, comp)
  | 0, _ :: _, visited, comp => (visited, comp)
  | fuel + 1, (cx, cy) :: rest, visited, comp =>
      let cidx := cy * w + cx
      if visited.testBit cidx || !(m.testBit cidx) then
        dfsLoop m w h fuel rest visited comp
      else
        dfsLoop m w h fuel ((neighborsOf w h cx cy).reverse ++ rest)
          (visited ||| 2 ^ cidx) (comp ++ [cidx])

/-- One outer-loop step of `filter_connected_components` for a pixel list
(source lines 339-398), threading the visited and result bitsets.  The
bounding-box accumulators of the source's single loop are written as four
folds; `aspect_ratio` is the source's `f32` division, modelled over `ℚ`. -/
def ccNext (m w h min_size idx : ℕ) (st : ℕ × ℕ) : ℕ × ℕ :=
  if m.testBit idx && !(st.1.testBit idx) then
    let dfs := dfsLoop m w h (9 * w * h + 9) [(idx % w, idx / w)] st.1 []
    let comp := dfs.2
    if min_size ≤ comp.length then
      let min_x := comp.foldl (fun a i => Nat.min a (i % w)) w
      let max_x := comp.foldl (fun a i => Nat.max a (i % w)) 0
      let min_y := comp.foldl (fun a i => Nat.min a (i / w)) h
      let max_y := comp.foldl (fun a i => Nat.max a (i / w)) 0
      let width_comp := max_x - min_x + 1
      let height_comp := max_y - min_y + 1
      let aspect_ratio : ℚ := (width_comp : ℚ) / (height_comp : ℚ)
      if 3/10 < aspect_ratio ∧ aspect_ratio < 10 then
        (dfs.1, comp.foldl (fun r i => r ||| 2 ^ i) st.2)
      else (dfs.1, st.2)
    else (dfs.1, st.2)
  else st

def ccLoop (m w h min_size : ℕ) : List ℕ → ℕ × ℕ → ℕ × ℕ
  | [], st => st
  | idx :: rest, st => ccLoop m w h min_size rest (ccNext m w h min_size idx st)

/-- `filter_connected_components` from the source: 8-connected component
labeling with size and aspect-ratio gates; returns the bitset of surviving
pixels. -/
def filter_connected_components (m : ℕ) (w h min_size : ℕ) : ℕ :=
  (ccLoop m w h min_size (List.range (h * w)) (0, 0)).2

/-- `savgol_smooth` from the source: distance-weighted moving average. -/
def savgol_smooth (data : List ℚ) (window : ℕ) : List ℚ :=
  if data.length ≤ window then data
  else
    let half_window := window / 2
    (List.range data.length).map fun i =>
      let start := i - half_window
      let stop := Nat.min (i + half_window + 1) data.length
      let slice := (data.drop start).take (stop - start)
      let count := slice.length
      let weight_sum : ℚ := (slice.enum.map fun je =>
        1 / (1 + |(je.1 : ℚ) - (count : ℚ) / 2| * (5/10))).sum
      let weighted_sum : ℚ := (slice.enum.map fun je =>
        je.2 * (1 / (1 + |(je.1 : ℚ) - (count : ℚ) / 2| * (5/10)))).sum
      weighted_sum / weight_sum

/-- `auto_detect_grid_size` from the source.  Its result is discarded by
`extract_curves`; `gradient.sqrt() > 0.1` is modelled by the equivalent
comparison of squares (both sides are nonnegative). -/
def auto_detect_grid_size (image : RgbImage) : ℕ × ℕ :=
  let width := image.width
  let height := image.height
  let size := Nat.min width height
  let gray : List ℚ := image.pixels.map fun p =>
    ((p.1 : ℚ) * (299/1000) + (p.2.1 : ℚ) * (587/1000) + (p.2.2 : ℚ) * (114/1000)) / 255
  let edges := (List.range (width * height)).countP fun idx =>
    let x := idx % width
    let y := idx / width
    decide (1 ≤ x ∧ x < width - 1 ∧ 1 ≤ y ∧ y < height - 1) &&
      (let gx := gray.getD (idx + 1) 0 - gray.getD (idx - 1) 0
       let gy := gray.getD (idx + width) 0 - gray.getD (idx - width) 0
       decide (1/100 < gx * gx + gy * gy))
  let edge_density : ℚ := (edges : ℚ) / ((width * height : ℕ) : ℚ)
  let estimated_size :=
    if 5/100 < edge_density then Nat.min (Nat.max (size / 80) 5) 50
    else Nat.min (Nat.max (size / 100) 5) 50
  (estimated_size, estimated_size)

/-- `BIN_SIZE` from the source. -/
def BIN_SIZE : ℚ := 1/100

/-- `HashMap::entry(k).or_insert_with(Vec::new).push(y)` on the binning map
(source lines 517-521), with the association list kept in first-insertion
order; iteration order over the map is a separate parameter. -/
def insertBin : List (ℤ × List ℚ) → ℤ → ℚ → List (ℤ × List ℚ)
  | [], k, y => [(k, [y])]
  | (k', ys) :: t, k, y =>
      if k' = k then (k', ys ++ [y]) :: t else (k', ys) :: insertBin t k y

/-- `HashMap::entry(base).or_insert_with(Vec::new).extend(points)` on the
per-base-color point map (source line 504). -/
def insertPoints :
    List (String × List (ℚ × ℚ)) → String → List (ℚ × ℚ) →
      List (String × List (ℚ × ℚ))
  | [], base, pts => [(base, pts)]
  | (b, ps) :: t, base, pts =>
      if b = base then (b, ps ++ pts) :: t else (b, ps) :: insertPoints t base pts

/-
Rust's `Vec::sort_by` with a total comparison is a stable sort.  A stable
sort by a total preorder has a unique result, so `List.insertionSort` —
which is stable and evaluates in the kernel, unlike `List.mergeSort`'s
well-founded recursion — is an exact model of the source's stable sorts.
-/

/-- Per-bucket statistics of the curve reconstructor (source lines 525-549):
sort, median, outlier filter `|y − median| < 2.0·0.2`, mean of survivors.
Returns `none` when the source's `continue` fires or nothing survives. -/
def binRep (bin_x : ℤ) (y_vals : List ℚ) : Option (ℚ × ℚ) :=
  if y_vals = [] then none
  else
    let sorted_y := y_vals.insertionSort fun a b => a ≤ b
    let n := sorted_y.length
    let median :=
      if n % 2 = 0 then (sorted_y.getD (n / 2 - 1) 0 + sorted_y.getD (n / 2) 0) / 2
      else sorted_y.getD (n / 2) 0
    let filtered := sorted_y.filter fun y => decide (|y - median| < 2 * (2/10))
    if filtered = [] then none
    else some ((bin_x : ℚ) * BIN_SIZE, filtered.sum / (filtered.length : ℚ))

/-- The adaptive smoothing window (source lines 559-563). -/
def smoothWindowFor (base : String) (len : ℕ) : ℕ :=
  if base = "red" then Nat.min (Nat.max (len / 10) 5) 25
  else if base = "blue" then Nat.min (Nat.max (len / 12) 5) 20
  else Nat.min (Nat.max (len / 15) 3) 15

/-- Round half to even, the rounding used by Rust's `{:.3}` float format. -/
def roundHalfEven (q : ℚ) : ℤ :=
  let f := ⌊q⌋
  let r := q - (f : ℚ)
  if r < 1/2 then f
  else if 1/2 < r then f + 1
  else if f % 2 = 0 then f else f + 1

/-- Three-digit zero padding for the fractional part of `fmt3`. -/
def pad3 (n : ℕ) : String :=
  if n < 10 then "00" ++ toString n
  else if n < 100 then "0" ++ toString n
  else toString n

/-- The `format ("X.XXX")` three-decimal rendering used for point labels. -/
def fmt3 (q : ℚ) : String :=
  let m := roundHalfEven (q * 1000)
  let sign := if m < 0 then "-" else ""
  let a := m.natAbs
  sign ++ toString (a / 1000) ++ "." ++ pad3 (a % 1000)

/-- The `logical_x` coordinate mapping (source lines 481-487).  `lnF` and
`expF` stand for `f64::ln` and `f64::exp`. -/
def logicalX (config : GraphConfig) (width : ℕ) (x : ℕ) (lnF expF : ℚ → ℚ) : ℚ :=
  if config.x_scale_type = "linear" then
    (x : ℚ) * (config.x_max - config.x_min) / (width : ℚ) + config.x_min
  else
    expF (lnF config.x_min + ((x : ℚ) / (width : ℚ)) * (lnF config.x_max - lnF config.x_min))

/-- The `logical_y` coordinate mapping (source lines 489-495); image y grows
downward, so `height - y` appears. -/
def logicalY (config : GraphConfig) (height : ℕ) (y : ℕ) (lnF expF : ℚ → ℚ) : ℚ :=
  if config.y_scale_type = "linear" then
    ((height - y : ℕ) : ℚ) * (config.y_max - config.y_min) / (height : ℚ) + config.y_min
  else
    expF (lnF config.y_min + (((height - y : ℕ) : ℚ) / (height : ℚ)) * (lnF config.y_max - lnF config.y_min))

/-- The per-base-color body of the curve loop (source lines 511-598).  The
state is `(curves, final_points)` where `final_points` is the loop local
that the source reads after the loop (see the `total_points` discussion):
it is modelled as a variable hoisted in front of the loop, so a skipped
iteration (`points.is_empty()`) leaves it unchanged. -/
def curveStep (reorderBins : List (ℤ × List ℚ) → List (ℤ × List ℚ))
    (config : GraphConfig) (st : List CurveData × List (ℚ × ℚ))
    (entry : String × List (ℚ × ℚ)) : List CurveData × List (ℚ × ℚ) :=
  let base_color := entry.1
  let points := entry.2
  if points = [] then st
  else
    let data := points.foldl (fun m p => insertBin m (rustRound (p.1 / BIN_SIZE)) p.2) []
    let final_points := (reorderBins data).foldl (fun acc e =>
      match binRep e.1 e.2 with
      | none => acc
      | some pt => acc ++ [pt]) []
    let final_sorted := final_points.insertionSort fun a b => a.1 ≤ b.1
    let x_vals := final_sorted.map Prod.fst
    let y_vals := final_sorted.map Prod.snd
    let smooth_window := smoothWindowFor base_color y_vals.length
    let smoothed_y :=
      if smooth_window < y_vals.length then savgol_smooth y_vals smooth_window else y_vals
    let scaled_x := x_vals.map fun x => x * config.x_scale
    let scaled_y := smoothed_y.map fun y => y * config.y_scale
    let curve_points := (scaled_x.zip scaled_y).map fun p =>
      { x := p.1, y := p.2, label := some (fmt3 p.1 ++ ", " ++ fmt3 p.2),
        confidence := none : CurvePoint }
    let display_color := ((get_color_ranges.lookup base_color).map ColorRange.display_color).getD "#000000"
    (st.1 ++ [{ name := base_color, color := display_color, points := curve_points,
                representation := some base_color,
                point_count := some final_sorted.length, metadata := none }],
     final_sorted)

/-- Rust's `str::to_lowercase` on the selected color names (ASCII in every
use here), written over the character list so that it evaluates in the
kernel (`String.toLower` is defined by position-based recursion that does
not reduce). -/
def rustToLowercase (s : String) : String := ⟨s.data.map Char.toLower⟩

/-- The body of the selected-colors loop (source lines 460-506): look the
name up in the palette (unknown names fall through), build and clean the
color mask, filter components with the adaptive minimum size
`(width * height / 1000).max(1000)` (a `u32` product, hence the `% 2 ^ 32`),
map surviving pixels to logical coordinates, and group them by base color. -/
def colorPass (image : RgbImage) (config : GraphConfig) (lnF expF : ℚ → ℚ)
    (bcp : List (String × List (ℚ × ℚ))) (color_name : String) :
    List (String × List (ℚ × ℚ)) :=
  let width := image.width
  let height := image.height
  match get_color_ranges.lookup (rustToLowercase color_name) with
  | none => bcp
  | some color_range =>
      let mask := maskBits image color_range
      let cleaned_mask := morphological_open mask width height
      let min_size := Nat.max (width * height % 2 ^ 32 / 1000) 1000
      let filtered_mask := filter_connected_components cleaned_mask width height min_size
      let points := (List.range (height * width)).filterMap fun idx =>
        if filtered_mask.testBit idx then
          some (logicalX config width (idx % width) lnF expF,
                logicalY config height (idx / width) lnF expF)
        else none
      insertPoints bcp color_range.base_color points

/-- `extract_curves` from the source (lines 439-614), applied to the decoded
raster (decoding is an external library call and can only fail before this
code runs).  `reorderBase` and `reorderBins` stand for the unspecified
iteration orders of the two interior `HashMap`s; `lnF`/`expF` model
`f64::ln`/`f64::exp`.  There is no configuration validation: the result is
always a `success := true` record. -/
def extract_curves
    (reorderBase : List (String × List (ℚ × ℚ)) → List (String × List (ℚ × ℚ)))
    (reorderBins : List (ℤ × List ℚ) → List (ℤ × List ℚ))
    (image : RgbImage) (selected_colors : List String) (config : GraphConfig)
    (lnF expF : ℚ → ℚ) : ExtractionResult :=
  let width := image.width
  let height := image.height
  let _grid := auto_detect_grid_size image
  let color_ranges := get_color_ranges
  let base_color_points := selected_colors.foldl (colorPass image config lnF expF) []
  let looped := (reorderBase base_color_points).foldl (curveStep reorderBins config) ([], [])
  { success := true
    curves := looped.1
    total_points := looped.2.length
    processing_time := 0
    error := none
    metadata := some
      { image_width := some width
        image_height := some height
        detected_colors := some color_ranges.length
        extraction_method := some "curve_extraction"
        quality_score := none } }

/-- `(total_pixels as f64 * 0.0005) as usize` (source line 652): the
detection threshold.  `total_pixels` is `(width * height) as usize` with the
multiplication performed on `u32`, hence the `% 2 ^ 32`; the float-to-usize
cast truncates, which on a nonnegative value is the floor. -/
def detectMinPixels (image : RgbImage) : ℕ :=
  (((image.width * image.height % 2 ^ 32 : ℕ) : ℚ) * (5/10000)).floor.toNat

/-- One iteration of the palette loop of `detect_colors` (source lines
647-667): count the mask's true pixels and emit one `DetectedColor` when the
count exceeds the threshold and the base color was not emitted before. -/
def detectStep (image : RgbImage) (st : List String × List DetectedColor)
    (e : String × ColorRange) : List String × List DetectedColor :=
  let mask := create_color_mask image e.2
  let pixel_count := mask.countP id
  let min_pixels := detectMinPixels image
  if min_pixels < pixel_count && !(st.1.contains e.2.base_color) then
    (e.2.base_color :: st.1,
     st.2 ++ [{ name := e.2.base_color, display_name := some e.2.base_color,
                color := e.2.display_color, pixel_count := pixel_count,
                hsv := none, confidence := none : DetectedColor }])
  else st

/-- `detect_colors` from the source (lines 617-676), applied to the decoded
raster.  `ord` is the unspecified iteration order of the palette `HashMap`
(an arbitrary enumeration of its nine entries).  The empty-buffer check and
decoding happen before this code and are external to the core. -/
def detect_colors (ord : List (String × ColorRange)) (image : RgbImage) :
    List DetectedColor :=
  let detected := (ord.foldl (detectStep image)
    (([] : List String), ([] : List DetectedColor))).2
  detected.insertionSort fun a b => b.pixel_count ≤ a.pixel_count

/-! ## Bitset builder characterisation -/

theorem bitsOfFnAux_step (fuel : ℕ) (f : ℕ → Bool) (lo n : ℕ) :
    bitsOfFnAux (fuel + 1) f lo (n + 2) =
      bitsOfFnAux fuel f lo ((n + 2) / 2) +
        2 ^ ((n + 2) / 2) * bitsOfFnAux fuel f (lo + (n + 2) / 2) (n + 2 - (n + 2) / 2) := rfl

theorem bitsOfFnAux_lt (fuel : ℕ) (f : ℕ → Bool) (lo n : ℕ) :
    bitsOfFnAux fuel f lo n < 2 ^ n := by
  induction fuel generalizing lo n with
  | zero =>
    match n with
    | 0 => simp [bitsOfFnAux]
    | 1 => simp only [bitsOfFnAux]; split <;> simp
    | n + 2 =>
      have h0 : bitsOfFnAux 0 f lo (n + 2) = 0 := rfl
      rw [h0]; positivity
  | succ fuel ih =>
    match n with
    | 0 => simp [bitsOfFnAux]
    | 1 => simp only [bitsOfFnAux]; split <;> simp
    | n + 2 =>
      rw [bitsOfFnAux_step]
      have h1 := ih lo ((n + 2) / 2)
      have h2 := ih (lo + (n + 2) / 2) (n + 2 - (n + 2) / 2)
      have hsplit : 2 ^ ((n + 2) / 2) * 2 ^ (n + 2 - (n + 2) / 2) = 2 ^ (n + 2) := by
        rw [← pow_add]
        congr 1
        omega
      calc bitsOfFnAux fuel f lo ((n + 2) / 2) +
            2 ^ ((n + 2) / 2) * bitsOfFnAux fuel f (lo + (n + 2) / 2) (n + 2 - (n + 2) / 2)
          < 2 ^ ((n + 2) / 2) * (bitsOfFnAux fuel f (lo + (n + 2) / 2) (n + 2 - (n + 2) / 2) + 1) := by
            have hmul : 2 ^ ((n + 2) / 2) *
                (bitsOfFnAux fuel f (lo + (n + 2) / 2) (n + 2 - (n + 2) / 2) + 1) =
                2 ^ ((n + 2) / 2) * bitsOfFnAux fuel f (lo + (n + 2) / 2) (n + 2 - (n + 2) / 2) +
                  2 ^ ((n + 2) / 2) := by ring
            omega
        _ ≤ 2 ^ ((n + 2) / 2) * 2 ^ (n + 2 - (n + 2) / 2) :=
            Nat.mul_le_mul_left _ h2
        _ = 2 ^ (n + 2) := hsplit

theorem testBit_bitsOfFnAux (fuel : ℕ) (f : ℕ → Bool) (lo n i : ℕ)
    (hn : n ≤ 2 ^ fuel) :
    (bitsOfFnAux fuel f lo n).testBit i = (decide (i < n) && f (lo + i)) := by
  induction fuel generalizing lo n i with
  | zero =>
    interval_cases n
    · simp [bitsOfFnAux]
    · match i with
      | 0 => simp only [bitsOfFnAux]; split <;> simp [*]
      | i + 1 =>
        simp only [bitsOfFnAux]
        split <;> simp [Nat.testBit_succ, Nat.zero_testBit]
  | succ fuel ih =>
    match n with
    | 0 => simp [bitsOfFnAux]
    | 1 =>
      match i with
      | 0 => simp only [bitsOfFnAux]; split <;> simp [*]
      | i + 1 =>
        simp only [bitsOfFnAux]
        split <;> simp [Nat.testBit_succ, Nat.zero_testBit]
    | n + 2 =>
      rw [bitsOfFnAux_step]
      have hm : (n + 2) / 2 ≤ 2 ^ fuel := by
        have h2 : 2 ^ (fuel + 1) = 2 * 2 ^ fuel := by ring
        omega
      have hm2 : n + 2 - (n + 2) / 2 ≤ 2 ^ fuel := by
        have h2 : 2 ^ (fuel + 1) = 2 * 2 ^ fuel := by ring
        omega
      have hcomm : bitsOfFnAux fuel f lo ((n + 2) / 2) +
            2 ^ ((n + 2) / 2) * bitsOfFnAux fuel f (lo + (n + 2) / 2) (n + 2 - (n + 2) / 2) =
          2 ^ ((n + 2) / 2) * bitsOfFnAux fuel f (lo + (n + 2) / 2) (n + 2 - (n + 2) / 2) +
            bitsOfFnAux fuel f lo ((n + 2) / 2) := by omega
      rw [hcomm, Nat.testBit_mul_pow_two_add _ (bitsOfFnAux_lt fuel f lo ((n + 2) / 2)) i]
      by_cases hlt : i < (n + 2) / 2
      · rw [if_pos hlt, ih lo ((n + 2) / 2) i hm]
        have hlt2 : i < n + 2 := by omega
        rw [decide_eq_true hlt, decide_eq_true hlt2]
      · rw [if_neg hlt, ih (lo + (n + 2) / 2) (n + 2 - (n + 2) / 2) (i - (n + 2) / 2) hm2]
        have harg : lo + (n + 2) / 2 + (i - (n + 2) / 2) = lo + i := by omega
        rw [harg]
        by_cases h2 : i < n + 2
        · have h3 : i - (n + 2) / 2 < n + 2 - (n + 2) / 2 := by omega
          rw [decide_eq_true h3, decide_eq_true h2]
        · have h3 : ¬ (i - (n + 2) / 2 < n + 2 - (n + 2) / 2) := by omega
          rw [decide_eq_false h3, decide_eq_false h2]

/-- Entry `i` of the vector built by `bitsOfFn n f` is `f i` for `i < n`,
and `false` beyond the vector. -/
theorem testBit_bitsOfFn (n : ℕ) (f : ℕ → Bool) (i : ℕ) :
    (bitsOfFn n f).testBit i = (decide (i < n) && f i) := by
  have := testBit_bitsOfFnAux n f 0 n i (Nat.lt_two_pow n).le
  simpa using this

/-! ## Neighbourhood helper lemmas -/

theorem offs9_bounds : ∀ o ∈ offs9, (-1 ≤ o.1 ∧ o.1 ≤ 1) ∧ (-1 ≤ o.2 ∧ o.2 ≤ 1) := by
  decide

theorem neg_mem_offs9 : ∀ o ∈ offs9, ((-o.1, -o.2) : ℤ × ℤ) ∈ offs9 := by
  decide

theorem nIdx_mod_div {w x y : ℕ} {o : ℤ × ℤ}
    (h1 : -1 ≤ o.1) (h2 : o.1 ≤ 1) (h3 : -1 ≤ o.2) (h4 : o.2 ≤ 1)
    (hx1 : 1 ≤ x) (hx2 : x + 1 < w) (hy1 : 1 ≤ y) :
    nIdx w x y o % w = ((x : ℤ) + o.2).toNat ∧
      nIdx w x y o / w = ((y : ℤ) + o.1).toNat := by
  have ha : ((x : ℤ) + o.2).toNat < w := by omega
  unfold nIdx
  rw [Nat.mul_comm]
  constructor
  · rw [Nat.mul_add_mod, Nat.mod_eq_of_lt ha]
  · rw [Nat.mul_add_div (by omega : 0 < w), Nat.div_eq_of_lt ha, Nat.add_zero]

theorem nIdx_lt {w h x y : ℕ} {o : ℤ × ℤ}
    (h1 : -1 ≤ o.1) (h2 : o.1 ≤ 1) (h3 : -1 ≤ o.2) (h4 : o.2 ≤ 1)
    (hx1 : 1 ≤ x) (hx2 : x + 1 < w) (hy1 : 1 ≤ y) (hy2 : y + 1 < h) :
    nIdx w x y o < w * h := by
  have ha : ((x : ℤ) + o.2).toNat < w := by omega
  have hb : ((y : ℤ) + o.1).toNat < h := by omega
  unfold nIdx
  calc ((y : ℤ) + o.1).toNat * w + ((x : ℤ) + o.2).toNat
      < (((y : ℤ) + o.1).toNat + 1) * w := by
        rw [Nat.succ_mul]; omega
    _ ≤ h * w := Nat.mul_le_mul_right w hb
    _ = w * h := Nat.mul_comm h w

/-! ## Claim C8: the erosion predicate -/

/-- Modelled from the spec's erosion clause, for the refinement comparison
of claim C8: an interior output pixel is true iff all 9 pixels of its 3×3
neighbourhood are true in the input mask; border pixels stay false. -/
def erodeBitsSpec (m : ℕ) (w h : ℕ) : ℕ :=
  bitsOfFn (w * h) fun idx =>
    let x := idx % w
    let y := idx / w
    if 1 ≤ x ∧ x + 1 < w ∧ 1 ≤ y ∧ y + 1 < h then
      offs9.all fun o => m.testBit (nIdx w x y o)
    else false

/-- The erosion stage equals the spec's all-9 erosion: the "at least 6
true neighbours" test of the source is redundant, because all 9 true
already forces the count to be 9. -/
theorem erodeBits_eq_spec (m w h : ℕ) : erodeBits m w h = erodeBitsSpec m w h := by
  unfold erodeBits erodeBitsSpec bitsOfFn
  congr 1
  funext idx
  set x := idx % w
  set y := idx / w
  by_cases hint : 1 ≤ x ∧ x + 1 < w ∧ 1 ≤ y ∧ y + 1 < h
  · rw [if_pos hint, if_pos hint]
    cases hall : offs9.all fun o => m.testBit (nIdx w x y o) with
    | false => simp
    | true =>
      have hcnt : (offs9.countP fun o => m.testBit (nIdx w x y o)) = 9 := by
        have h9 : offs9.length = 9 := rfl
        rw [← h9]
        rw [List.countP_eq_length]
        intro o ho
        exact List.all_eq_true.mp hall o ho
      simp [hcnt]
  · rw [if_neg hint, if_neg hint]

/-- C8: for every mask, width, and height, the erosion stage of
`morphological_open` equals the spec's all-9 erosion: the additional
"at least 6 true neighbours" test of the source is redundant, because all
9 true already forces the count to be 9. -/
theorem claim_C8_erosion_all9 (m w h : ℕ) : erodeBits m w h = erodeBitsSpec m w h :=
  erodeBits_eq_spec m w h

/-! ## Claim C10: morphological opening is anti-extensive -/

/-- C10: every pixel that is true in the output of `morphological_open` is
true in the input mask: the denoising stage only removes pixels. -/
theorem claim_C10_open_anti_extensive (m w h idx : ℕ)
    (hbit : (morphological_open m w h).testBit idx = true) :
    m.testBit idx = true := by
  unfold morphological_open dilateBits bitsOfFn at hbit
  rw [← bitsOfFn, testBit_bitsOfFn] at hbit
  rw [Bool.and_eq_true, decide_eq_true_eq] at hbit
  obtain ⟨hidx, hbody⟩ := hbit
  by_cases hint : 1 ≤ idx % w ∧ idx % w + 1 < w ∧ 1 ≤ idx / w ∧ idx / w + 1 < h
  swap
  · rw [if_neg hint] at hbody; exact absurd hbody (by simp)
  rw [if_pos hint] at hbody
  rw [List.any_eq_true] at hbody
  obtain ⟨o, ho, hero⟩ := hbody
  obtain ⟨⟨ho1, ho2⟩, ho3, ho4⟩ := offs9_bounds o ho
  obtain ⟨hint1, hint2, hint3, hint4⟩ := hint
  -- the eroded neighbour index and its coordinates
  set j := nIdx w (idx % w) (idx / w) o with hj
  obtain ⟨hjmod, hjdiv⟩ := nIdx_mod_div ho1 ho2 ho3 ho4 hint1 hint2 hint3
  unfold erodeBits bitsOfFn at hero
  rw [← bitsOfFn, testBit_bitsOfFn] at hero
  rw [Bool.and_eq_true, decide_eq_true_eq] at hero
  obtain ⟨hjlt, hjbody⟩ := hero
  by_cases hjint : 1 ≤ j % w ∧ j % w + 1 < w ∧ 1 ≤ j / w ∧ j / w + 1 < h
  swap
  · rw [if_neg hjint] at hjbody; exact absurd hjbody (by simp)
  rw [if_pos hjint] at hjbody
  rw [Bool.and_eq_true] at hjbody
  have hall := List.all_eq_true.mp hjbody.1
  have hmem := neg_mem_offs9 o ho
  have hback := hall ((-o.1, -o.2) : ℤ × ℤ) hmem
  have hgoal : nIdx w (j % w) (j / w) ((-o.1, -o.2) : ℤ × ℤ) = idx := by
    unfold nIdx
    have e1 : (((j / w : ℕ) : ℤ) + ((-o.1, -o.2) : ℤ × ℤ).1).toNat = idx / w := by
      rw [hjdiv]; omega
    have e2 : (((j % w : ℕ) : ℤ) + ((-o.1, -o.2) : ℤ × ℤ).2).toNat = idx % w := by
      rw [hjmod]; omega
    rw [e1, e2, Nat.mul_comm]
    exact Nat.div_add_mod idx w
  rw [hgoal] at hback
  exact hback

/-! ## Claim C5: classification of pure red and crimson -/

/-- C5 (code bug): `rgb_to_hsv` followed by `color_matches_range` accepts a
pure red pixel (255,0,0) for the "red" range, but because Rust's float `%`
is a remainder that keeps the dividend's sign, a crimson pixel (200,20,30)
gets hue `-10/3` degrees (not ≈357°); its halved hue `-5/3` lies in neither
`[0,15]` nor `[165,180]`, so crimson matches no palette range whose base
color is "red". -/
theorem claim_C5_crimson_not_red :
    (color_matches_range (rgb_to_hsv 255 0 0).1 (rgb_to_hsv 255 0 0).2.1
        (rgb_to_hsv 255 0 0).2.2 rangeRed = true) ∧
    rgb_to_hsv 200 20 30 = (-10/3, 9/10, 40/51) ∧
    (∀ e ∈ get_color_ranges, e.2.base_color = "red" →
      color_matches_range (rgb_to_hsv 200 20 30).1 (rgb_to_hsv 200 20 30).2.1
        (rgb_to_hsv 200 20 30).2.2 e.2 = false) := by
  refine ⟨by decide, by decide, by decide⟩

/-! ## Claims C1 and C9: the error behaviour of extract_curves -/

/-- The invalid logarithmic configuration of the spec's scenario 6:
`x_scale_type = "log"`, `x_min = 0`, `x_max = 10`. -/
def cfgLogZero : GraphConfig :=
  { x_min := 0, x_max := 10, y_min := 0, y_max := 1, x_scale := 1, y_scale := 1,
    x_scale_type := "log", y_scale_type := "linear", graph_type := "output",
    x_axis_name := none, y_axis_name := none }

/-- An all-linear unit configuration used by several witnesses. -/
def cfgLinear : GraphConfig :=
  { x_min := 0, x_max := 1, y_min := 0, y_max := 1, x_scale := 1, y_scale := 1,
    x_scale_type := "linear", y_scale_type := "linear", graph_type := "output",
    x_axis_name := none, y_axis_name := none }

/-- A 2×2 test raster: one pure red pixel, three white pixels. -/
def img2x2red : RgbImage :=
  { width := 2, height := 2,
    pixels := [(255, 0, 0), (255, 255, 255), (255, 255, 255), (255, 255, 255)] }

/-- C1 (code bug): `extract_curves` performs no configuration validation at
all.  With the log-axis configuration whose left endpoint is 0 it still
returns a `success = true` result and no error, for every decoded image,
every selected color list, every hash-map iteration order, and every model
of `f64::ln`/`f64::exp` (the source would evaluate `ln(0) = -∞` here). -/
theorem claim_C1_log_zero_config_no_error
    (reorderBase : List (String × List (ℚ × ℚ)) → List (String × List (ℚ × ℚ)))
    (reorderBins : List (ℤ × List ℚ) → List (ℤ × List ℚ))
    (image : RgbImage) (selected_colors : List String) (lnF expF : ℚ → ℚ) :
    (extract_curves reorderBase reorderBins image selected_colors cfgLogZero
        lnF expF).success = true ∧
    (extract_curves reorderBase reorderBins image selected_colors cfgLogZero
        lnF expF).error = none :=
  ⟨rfl, rfl⟩

/-- A fold whose step fixes every accumulator returns its initial value. -/
theorem foldl_fixed {α β : Type} (f : β → α → β) (l : List α) (b : β)
    (h : ∀ c ∈ l, ∀ x, f x c = x) : l.foldl f b = b := by
  induction l generalizing b with
  | nil => rfl
  | cons a t ih =>
    rw [List.foldl_cons, h a (by simp)]
    exact ih b fun c hc x => h c (by simp [hc]) x

/-- C9: if every selected color name is unknown to the palette, the per-color
loop never fires and the result is `success = true`, `curves = []`,
`total_points = 0` with no error — unknown names are silently ignored. -/
theorem claim_C9_unknown_colors_ignored
    (reorderBase : List (String × List (ℚ × ℚ)) → List (String × List (ℚ × ℚ)))
    (reorderBins : List (ℤ × List ℚ) → List (ℤ × List ℚ))
    (hrB : ∀ l, reorderBase l = l ∨ (reorderBase l).Perm l)
    (image : RgbImage) (config : GraphConfig) (lnF expF : ℚ → ℚ)
    (selected_colors : List String)
    (hsel : ∀ c ∈ selected_colors, get_color_ranges.lookup (rustToLowercase c) = none) :
    (extract_curves reorderBase reorderBins image selected_colors config
        lnF expF).success = true ∧
    (extract_curves reorderBase reorderBins image selected_colors config
        lnF expF).curves = [] ∧
    (extract_curves reorderBase reorderBins image selected_colors config
        lnF expF).total_points = 0 ∧
    (extract_curves reorderBase reorderBins image selected_colors config
        lnF expF).error = none := by
  have hbase : selected_colors.foldl (colorPass image config lnF expF) [] = [] := by
    refine foldl_fixed _ _ _ fun c hc x => ?_
    unfold colorPass
    rw [hsel c hc]
  have hnil : reorderBase [] = [] := by
    rcases hrB [] with h | h
    · exact h
    · exact h.eq_nil
  simp only [extract_curves, hbase, hnil, List.foldl_nil]
  exact ⟨trivial, trivial, rfl, trivial⟩

/-- Witness for C9 at the concrete input of the spec's scenario 5:
`selected = ["teal"]` on a decodable image. -/
theorem claim_C9_witness :
    (∀ c ∈ ["teal"], get_color_ranges.lookup (rustToLowercase c) = none) ∧
    (extract_curves id id img2x2red ["teal"] cfgLinear id id).success = true ∧
    (extract_curves id id img2x2red ["teal"] cfgLinear id id).curves = [] ∧
    (extract_curves id id img2x2red ["teal"] cfgLinear id id).total_points = 0 ∧
    (extract_curves id id img2x2red ["teal"] cfgLinear id id).error = none := by
  refine ⟨by decide, ?_⟩
  exact claim_C9_unknown_colors_ignored id id (fun l => Or.inl rfl) img2x2red
    cfgLinear id id ["teal"] (by decide)

/-! ## Claim C6: the detection threshold -/

/-- The emission condition of `detectStep`, as a proposition: the mask's
pixel count exceeds the threshold. -/
def detectPasses (image : RgbImage) (e : String × ColorRange) : Prop :=
  detectMinPixels image < (create_color_mask image e.2).countP id

instance (image : RgbImage) (e : String × ColorRange) :
    Decidable (detectPasses image e) := by
  unfold detectPasses; infer_instance

/-- Every color in the fold state's output either was there initially or
comes from a palette entry that passed the threshold. -/
theorem detect_fold_mem (image : RgbImage) (l : List (String × ColorRange))
    (st : List String × List DetectedColor) (d : DetectedColor)
    (hd : d ∈ (l.foldl (detectStep image) st).2) :
    d ∈ st.2 ∨ ∃ e ∈ l, e.2.base_color = d.name ∧
      (create_color_mask image e.2).countP id = d.pixel_count ∧
      detectPasses image e := by
  induction l generalizing st with
  | nil => exact Or.inl hd
  | cons e t ih =>
    rw [List.foldl_cons] at hd
    rcases ih (detectStep image st e) hd with hmem | ⟨e', he', h1, h2, h3⟩
    · unfold detectStep at hmem
      dsimp only at hmem
      by_cases hcond : (decide (detectMinPixels image <
          List.countP id (create_color_mask image e.2)) &&
          !st.1.contains e.2.base_color) = true
      · rw [if_pos hcond] at hmem
        rcases List.mem_append.mp hmem with hold | hnew
        · exact Or.inl hold
        · refine Or.inr ⟨e, by simp, ?_⟩
          rw [List.mem_singleton.mp hnew]
          refine ⟨rfl, rfl, ?_⟩
          unfold detectPasses
          rw [Bool.and_eq_true, decide_eq_true_eq] at hcond
          exact hcond.1
      · rw [if_neg hcond] at hmem
        exact Or.inl hmem
    · exact Or.inr ⟨e', by simp [he'], h1, h2, h3⟩

/-- C6 (amended): every `DetectedColor` returned by `detect_colors` has
`pixel_count` strictly greater than `⌊0.0005·W·H⌋` — without the `max(1, ·)`
floor that the claim states — and its `pixel_count` is the mask count of a
palette entry carrying its name, so a base color all of whose range masks
are at or below the threshold never appears. -/
theorem claim_C6_threshold (ord : List (String × ColorRange)) (image : RgbImage)
    (d : DetectedColor) (hd : d ∈ detect_colors ord image) :
    detectMinPixels image < d.pixel_count ∧
      ∃ e ∈ ord, e.2.base_color = d.name ∧
        (create_color_mask image e.2).countP id = d.pixel_count := by
  unfold detect_colors at hd
  rw [(List.perm_insertionSort _ _).mem_iff] at hd
  rcases detect_fold_mem image ord ([], []) d hd with h | ⟨e, he, h1, h2, h3⟩
  · exact absurd h (List.not_mem_nil d)
  · unfold detectPasses at h3
    rw [h2] at h3
    exact ⟨h3, e, he, h1, h2⟩

/-- Witness for the amended C6 on a concrete 2×2 image with a single red
pixel: the emitted red entry has `pixel_count = 1 > ⌊0.0005·4⌋ = 0`. -/
theorem claim_C6_threshold_witness :
    ({ name := "red", display_name := some "red", color := "#FF0000",
       pixel_count := 1, hsv := none, confidence := none : DetectedColor } ∈
        detect_colors get_color_ranges img2x2red) ∧
    detectMinPixels img2x2red <
      ({ name := "red", display_name := some "red", color := "#FF0000",
         pixel_count := 1, hsv := none, confidence := none : DetectedColor}).pixel_count := by
  refine ⟨by decide, ?_⟩
  exact (claim_C6_threshold get_color_ranges img2x2red _ (by decide)).1

/-- Counterexample for C6 as stated: on the 2×2 one-red-pixel image the
threshold `max(1, ⌊0.0005·W·H⌋)` equals 1, yet `detect_colors` emits a
`DetectedColor` with `pixel_count = 1`, which is not strictly greater. -/
theorem claim_C6_counterexample :
    ∃ d ∈ detect_colors get_color_ranges img2x2red,
      d.pixel_count ≤
        Nat.max 1 (((img2x2red.width * img2x2red.height : ℕ) : ℚ) * (5/10000)).floor.toNat := by
  decide

/-! ## Claim C2: determinism and the hash-map iteration order -/

theorem le_fmax_left (a b : ℚ) : a ≤ fmax a b := by
  unfold fmax; split
  · assumption
  · exact le_refl a

theorem le_fmax_right (a b : ℚ) : b ≤ fmax a b := by
  unfold fmax; split
  · exact le_refl b
  · linarith

theorem fmin_le_left (a b : ℚ) : fmin a b ≤ a := by
  unfold fmin; split
  · exact le_refl a
  · linarith

theorem fmin_le_right (a b : ℚ) : fmin a b ≤ b := by
  unfold fmin; split
  · assumption
  · exact le_refl b

/-- The hue produced by `rgb_to_hsv` never exceeds 300 degrees: with Rust's
sign-preserving float remainder, the max-red branch yields hues in
`[-60, 60]`, the max-green branch `[60, 180]`, and the max-blue branch
`[180, 300]`.  Hues in `(300, 360)` are unreachable. -/
theorem rgb_to_hsv_hue_le (r g b : ℕ) : (rgb_to_hsv r g b).1 ≤ 300 := by
  unfold rgb_to_hsv
  dsimp only
  set r' : ℚ := (r : ℚ) / 255 with hr'
  set g' : ℚ := (g : ℚ) / 255 with hg'
  set b' : ℚ := (b : ℚ) / 255 with hb'
  have hrmx : r' ≤ fmax r' (fmax g' b') := le_fmax_left _ _
  have hgmx : g' ≤ fmax r' (fmax g' b') :=
    le_trans (le_fmax_left _ _) (le_fmax_right _ _)
  have hbmx : b' ≤ fmax r' (fmax g' b') :=
    le_trans (le_fmax_right _ _) (le_fmax_right _ _)
  have hmnr : fmin r' (fmin g' b') ≤ r' := fmin_le_left _ _
  have hmng : fmin r' (fmin g' b') ≤ g' :=
    le_trans (fmin_le_right _ _) (fmin_le_left _ _)
  have hmnb : fmin r' (fmin g' b') ≤ b' :=
    le_trans (fmin_le_right _ _) (fmin_le_right _ _)
  set mx := fmax r' (fmax g' b')
  set mn := fmin r' (fmin g' b')
  by_cases hd : mx - mn = 0
  · rw [if_pos hd]; norm_num
  · rw [if_neg hd]
    have hdpos : 0 < mx - mn := lt_of_le_of_ne (by linarith) (Ne.symm hd)
    by_cases hmr : mx = r'
    · rw [if_pos hmr]
      have hq1 : (g' - b') / (mx - mn) ≤ 1 := (div_le_one hdpos).mpr (by linarith)
      have hq2 : -1 ≤ (g' - b') / (mx - mn) := by
        rw [le_div_iff hdpos]; linarith
      have hrem : rustRem ((g' - b') / (mx - mn)) 6 = (g' - b') / (mx - mn) := by
        unfold rustRem ratTrunc
        have h61 : (g' - b') / (mx - mn) / 6 < 1 := by linarith
        have h62 : -1 < (g' - b') / (mx - mn) / 6 := by linarith
        split
        · rw [Int.floor_eq_zero_iff.mpr ⟨by assumption, h61⟩]
          push_cast; ring
        · rw [Int.floor_eq_zero_iff.mpr ⟨by linarith, by linarith⟩]
          push_cast; ring
      rw [hrem]; linarith
    · rw [if_neg hmr]
      by_cases hmg : mx = g'
      · rw [if_pos hmg]
        have hq1 : (b' - r') / (mx - mn) ≤ 1 := (div_le_one hdpos).mpr (by linarith)
        linarith
      · rw [if_neg hmg]
        have hq1 : (r' - g') / (mx - mn) ≤ 1 := (div_le_one hdpos).mpr (by linarith)
        linarith

/-- The "red2" palette range is dead code: since hues stay at or below 300
degrees, the halved hue never reaches its lower bound 165, so no pixel of
any image ever matches it. -/
theorem red2_matches_nothing (r g b : ℕ) :
    color_matches_range (rgb_to_hsv r g b).1 (rgb_to_hsv r g b).2.1
      (rgb_to_hsv r g b).2.2 rangeRed2 = false := by
  have hh := rgb_to_hsv_hue_le r g b
  unfold color_matches_range
  dsimp only
  have hno : ¬ ((rangeRed2.lower.1 : ℚ) ≤ (rgb_to_hsv r g b).1 / 2) := by
    have : (rangeRed2.lower.1 : ℚ) = 165 := by norm_num [rangeRed2]
    rw [this]
    linarith
  rw [if_neg (by norm_num [rangeRed2] : ¬ rangeRed2.upper.1 < rangeRed2.lower.1)]
  rw [decide_eq_false hno]
  simp

/-- The "red2" entry can never pass the detection threshold: its mask is
all false, so its pixel count is 0. -/
theorem red2_not_passes (image : RgbImage) :
    ¬ detectPasses image ("red2", rangeRed2) := by
  unfold detectPasses
  have hz : (create_color_mask image rangeRed2).countP id = 0 := by
    rw [List.countP_eq_zero]
    unfold create_color_mask
    intro a ha
    rw [List.mem_map] at ha
    obtain ⟨p, _, hpa⟩ := ha
    rw [← hpa, red2_matches_nothing]
    simp
  rw [hz]
  omega

/-- The `DetectedColor` record that `detectStep` emits for a palette entry. -/
def mkDetected (image : RgbImage) (e : String × ColorRange) : DetectedColor :=
  { name := e.2.base_color, display_name := some e.2.base_color,
    color := e.2.display_color,
    pixel_count := (create_color_mask image e.2).countP id,
    hsv := none, confidence := none }

/-- When no two passing entries share a base color and no passing entry's
base color was processed before, the stateful palette fold reduces to a
stateless filter: the emitted list is the passing entries in iteration
order. -/
theorem detect_fold_eq_filter (image : RgbImage) :
    ∀ (l : List (String × ColorRange)) (processed : List String)
      (acc : List DetectedColor),
      (∀ e ∈ l, detectPasses image e → e.2.base_color ∉ processed) →
      (l.Pairwise fun a b => detectPasses image a → detectPasses image b →
        a.2.base_color ≠ b.2.base_color) →
      (l.foldl (detectStep image) (processed, acc)).2 =
        acc ++ (l.filter fun e => decide (detectPasses image e)).map (mkDetected image)
  | [], processed, acc, _, _ => by simp
  | e :: t, processed, acc, hpass, hdisj => by
    rw [List.foldl_cons]
    obtain ⟨hhead, htail⟩ := List.pairwise_cons.mp hdisj
    by_cases hp : detectPasses image e
    · have hnotmem : e.2.base_color ∉ processed := hpass e (by simp) hp
      have hstep : detectStep image (processed, acc) e =
          (e.2.base_color :: processed, acc ++ [mkDetected image e]) := by
        unfold detectStep mkDetected
        dsimp only
        rw [if_pos]
        rw [Bool.and_eq_true, decide_eq_true_eq, Bool.not_eq_true']
        exact ⟨hp, by simpa using hnotmem⟩
      rw [hstep]
      rw [detect_fold_eq_filter image t (e.2.base_color :: processed)
        (acc ++ [mkDetected image e])
        (fun e' he' hp' => by
          rcases hpass e' (by simp [he']) hp' with hnp
          have hne := hhead e' he' hp hp'
          simp [hnp]
          exact fun hcontra => hne hcontra.symm)
        htail]
      simp [hp]
    · have hstep : detectStep image (processed, acc) e = (processed, acc) := by
        unfold detectStep
        dsimp only
        rw [if_neg]
        rw [Bool.and_eq_true, decide_eq_true_eq]
        exact fun hc => hp hc.1
      rw [hstep]
      rw [detect_fold_eq_filter image t processed acc
        (fun e' he' hp' => hpass e' (by simp [he']) hp') htail]
      simp [hp]

/-- Every palette enumeration, up to the dead "red2" entry, has pairwise
distinct base colors among passing entries. -/
theorem palette_passing_disjoint (image : RgbImage) :
    get_color_ranges.Pairwise fun a b => detectPasses image a →
      detectPasses image b → a.2.base_color ≠ b.2.base_color := by
  have hkey : ∀ e ∈ get_color_ranges, e.1 = "red2" → e = ("red2", rangeRed2) := by
    decide
  have hP : get_color_ranges.Pairwise fun a b =>
      a.2.base_color ≠ b.2.base_color ∨ a.1 = "red2" ∨ b.1 = "red2" := by
    decide
  refine hP.imp_of_mem ?_
  intro a b ha hb hor hpa hpb
  rcases hor with h | h | h
  · exact h
  · rw [hkey a ha h] at hpa
    exact absurd hpa (red2_not_passes image)
  · rw [hkey b hb h] at hpb
    exact absurd hpb (red2_not_passes image)

/-- The `detect_colors` half of claim C2: for any two enumerations of the
palette `HashMap`, the outputs are permutations of each other — the
emitted multiset does not depend on the iteration order. -/
theorem detect_colors_multiset_deterministic (image : RgbImage)
    (o1 o2 : List (String × ColorRange))
    (h1 : o1.Perm get_color_ranges) (h2 : o2.Perm get_color_ranges) :
    (detect_colors o1 image).Perm (detect_colors o2 image) := by
  have key : ∀ o : List (String × ColorRange), o.Perm get_color_ranges →
      (detect_colors o image).Perm
        ((get_color_ranges.filter fun e => decide (detectPasses image e)).map
          (mkDetected image)) := by
    intro o ho
    have hdisj : o.Pairwise fun a b => detectPasses image a →
        detectPasses image b → a.2.base_color ≠ b.2.base_color := by
      refine (ho.pairwise_iff ?_).mpr (palette_passing_disjoint image)
      intro x y hxy hpy hpx
      exact (hxy hpx hpy).symm
    have hout := detect_fold_eq_filter image o [] [] (by simp) hdisj
    unfold detect_colors
    refine (List.perm_insertionSort _ _).trans ?_
    rw [hout]
    rw [List.nil_append]
    exact (ho.filter _).map _
  exact (key o1 h1).trans (key o2 h2).symm

/-- A 2×2 test raster: one pure blue pixel, three white pixels.  A pure
blue pixel matches both the "blue" and the "purple" palette ranges, with
equal pixel counts. -/
def img2x2blue : RgbImage :=
  { width := 2, height := 2,
    pixels := [(0, 0, 255), (255, 255, 255), (255, 255, 255), (255, 255, 255)] }

/-- Counterexample for C2 as stated: the palette iteration order is not
fixed in the source (`HashMap`'s hasher is randomly seeded), and two
enumerations of the same palette produce different `detect_colors` outputs:
"blue" and "purple" tie at one pixel each, and the stable sort keeps them
in iteration order. -/
theorem claim_C2_counterexample :
    List.Perm get_color_ranges.reverse get_color_ranges ∧
    detect_colors get_color_ranges img2x2blue ≠
      detect_colors get_color_ranges.reverse img2x2blue := by
  refine ⟨by decide, by decide⟩

/-- The sorted per-bin representatives of one base color's point cloud
(the `final_sorted` local of the source's curve loop, lines 515-551),
with the binning map's iteration order as the parameter. -/
def mkFinal (reorderBins : List (ℤ × List ℚ) → List (ℤ × List ℚ))
    (entry : String × List (ℚ × ℚ)) : List (ℚ × ℚ) :=
  let data := entry.2.foldl (fun m p => insertBin m (rustRound (p.1 / BIN_SIZE)) p.2) []
  let final_points := (reorderBins data).foldl (fun acc e =>
    match binRep e.1 e.2 with
    | none => acc
    | some pt => acc ++ [pt]) []
  final_points.insertionSort fun a b => a.1 ≤ b.1

/-- The `CurveData` record the source's curve loop appends for one
nonempty base color entry (lines 553-598). -/
def mkCurve (reorderBins : List (ℤ × List ℚ) → List (ℤ × List ℚ))
    (config : GraphConfig) (entry : String × List (ℚ × ℚ)) : CurveData :=
  let base_color := entry.1
  let final_sorted := mkFinal reorderBins entry
  let x_vals := final_sorted.map Prod.fst
  let y_vals := final_sorted.map Prod.snd
  let smooth_window := smoothWindowFor base_color y_vals.length
  let smoothed_y :=
    if smooth_window < y_vals.length then savgol_smooth y_vals smooth_window else y_vals
  let scaled_x := x_vals.map fun x => x * config.x_scale
  let scaled_y := smoothed_y.map fun y => y * config.y_scale
  let curve_points := (scaled_x.zip scaled_y).map fun p =>
    { x := p.1, y := p.2, label := some (fmt3 p.1 ++ ", " ++ fmt3 p.2),
      confidence := none : CurvePoint }
  let display_color := ((get_color_ranges.lookup base_color).map ColorRange.display_color).getD "#000000"
  { name := base_color, color := display_color, points := curve_points,
    representation := some base_color,
    point_count := some final_sorted.length, metadata := none }

/-- `curveStep` splits into a skip on empty entries and an append of
`mkCurve` with new state `mkFinal`. -/
theorem curveStep_split (reorderBins : List (ℤ × List ℚ) → List (ℤ × List ℚ))
    (config : GraphConfig) (st : List CurveData × List (ℚ × ℚ))
    (entry : String × List (ℚ × ℚ)) :
    curveStep reorderBins config st entry =
      if entry.2 = [] then st
      else (st.1 ++ [mkCurve reorderBins config entry], mkFinal reorderBins entry) := by
  unfold curveStep mkCurve mkFinal
  dsimp only

/-- The bin-representative fold of the curve loop, as a `filterMap`. -/
theorem foldl_binRep_append :
    ∀ (l : List (ℤ × List ℚ)) (acc : List (ℚ × ℚ)),
      l.foldl (fun acc e =>
        match binRep e.1 e.2 with
        | none => acc
        | some pt => acc ++ [pt]) acc
      = acc ++ l.filterMap fun e => binRep e.1 e.2
  | [], acc => by simp
  | e :: t, acc => by
      rw [List.foldl_cons, List.filterMap_cons]
      cases hb : binRep e.1 e.2 with
      | none =>
          dsimp only
          exact foldl_binRep_append t acc
      | some pt =>
          dsimp only
          rw [foldl_binRep_append t (acc ++ [pt]), List.append_assoc,
            List.singleton_append]

/-- The curve loop's output list: one `mkCurve` per nonempty entry, in
enumeration order. -/
theorem foldl_curveStep_filter (reorderBins : List (ℤ × List ℚ) → List (ℤ × List ℚ))
    (config : GraphConfig) :
    ∀ (l : List (String × List (ℚ × ℚ))) (cs : List CurveData)
      (fp : List (ℚ × ℚ)),
      (l.foldl (curveStep reorderBins config) (cs, fp)).1
        = cs ++ (l.filter fun e => decide ¬(e.2 = [])).map (mkCurve reorderBins config)
  | [], cs, fp => by simp
  | e :: t, cs, fp => by
      rw [List.foldl_cons, List.filter_cons, curveStep_split]
      by_cases h : e.2 = []
      · rw [if_pos h, decide_eq_false (not_not_intro h), if_neg Bool.false_ne_true]
        exact foldl_curveStep_filter reorderBins config t cs fp
      · rw [if_neg h, decide_eq_true h, if_pos rfl]
        rw [foldl_curveStep_filter reorderBins config t
          (cs ++ [mkCurve reorderBins config e]) (mkFinal reorderBins e)]
        rw [List.map_cons, List.append_assoc, List.singleton_append]

/-- Two sorted lists with the same elements and pairwise-distinct x keys
are equal. -/
theorem sorted_keys_perm_eq :
    ∀ (l1 l2 : List (ℚ × ℚ)), l1.Perm l2 →
      l1.Pairwise (fun a b => a.1 ≤ b.1) → l2.Pairwise (fun a b => a.1 ≤ b.1) →
      (l1.map Prod.fst).Nodup → l1 = l2
  | [], l2, hp, _, _, _ => hp.nil_eq
  | a :: t1, [], hp, _, _, _ => by
      rw [List.perm_nil] at hp
      exact absurd hp (List.cons_ne_nil a t1)
  | a :: t1, b :: t2, hp, hs1, hs2, hnd => by
      obtain ⟨hab1, hs1'⟩ := List.pairwise_cons.mp hs1
      obtain ⟨hab2, hs2'⟩ := List.pairwise_cons.mp hs2
      rw [List.map_cons] at hnd
      obtain ⟨hna, hnd'⟩ := List.nodup_cons.mp hnd
      have hab : a = b := by
        rcases List.mem_cons.mp (hp.mem_iff.mpr (List.mem_cons_self b t2)) with
          heq | hbt1
        · exact heq.symm
        · rcases List.mem_cons.mp (hp.symm.mem_iff.mpr (List.mem_cons_self a t1))
            with heq | hat2
          · exact heq
          · have hkey : a.1 = b.1 := le_antisymm (hab1 b hbt1) (hab2 a hat2)
            have hbm := List.mem_map_of_mem Prod.fst hbt1
            rw [← hkey] at hbm
            exact absurd hbm hna
      subst hab
      have hp' : t1.Perm t2 := hp.cons_inv
      rw [sorted_keys_perm_eq t1 t2 hp' hs1' hs2' hnd']

/-- Keys of `insertBin` come from the map or are the inserted key. -/
theorem insertBin_keys_mem :
    ∀ (m : List (ℤ × List ℚ)) (k : ℤ) (y : ℚ) (x : ℤ),
      x ∈ (insertBin m k y).map Prod.fst → x ∈ m.map Prod.fst ∨ x = k
  | [], k, y, x, hx => by
      simp [insertBin] at hx
      exact Or.inr hx
  | (k', ys) :: t, k, y, x, hx => by
      unfold insertBin at hx
      by_cases h : k' = k
      · rw [if_pos h, List.map_cons] at hx
        rw [List.map_cons]
        exact Or.inl hx
      · rw [if_neg h, List.map_cons] at hx
        rcases List.mem_cons.mp hx with heq | ht
        · exact Or.inl (by rw [List.map_cons]; exact heq ▸ List.mem_cons_self _ _)
        · rcases insertBin_keys_mem t k y x ht with h1 | h2
          · exact Or.inl (by rw [List.map_cons]; exact List.mem_cons_of_mem _ h1)
          · exact Or.inr h2

/-- `insertBin` keeps the binning map's keys duplicate-free. -/
theorem insertBin_keys_nodup :
    ∀ (m : List (ℤ × List ℚ)) (k : ℤ) (y : ℚ),
      (m.map Prod.fst).Nodup → ((insertBin m k y).map Prod.fst).Nodup
  | [], _, _, _ => by simp [insertBin]
  | (k', ys) :: t, k, y, hnd => by
      rw [List.map_cons] at hnd
      obtain ⟨hk', hnd'⟩ := List.nodup_cons.mp hnd
      unfold insertBin
      by_cases h : k' = k
      · rw [if_pos h, List.map_cons]
        exact List.nodup_cons.mpr ⟨hk', hnd'⟩
      · rw [if_neg h, List.map_cons]
        refine List.nodup_cons.mpr ⟨?_, insertBin_keys_nodup t k y hnd'⟩
        intro hmem
        rcases insertBin_keys_mem t k y _ hmem with h1 | h2
        · exact hk' h1
        · exact h h2

/-- The binning fold of the curve loop has duplicate-free keys. -/
theorem foldl_insertBin_keys_nodup :
    ∀ (ps : List (ℚ × ℚ)) (m : List (ℤ × List ℚ)),
      (m.map Prod.fst).Nodup →
      ((ps.foldl (fun m p => insertBin m (rustRound (p.1 / BIN_SIZE)) p.2)
        m).map Prod.fst).Nodup
  | [], _, h => h
  | p :: t, m, h => by
      rw [List.foldl_cons]
      exact foldl_insertBin_keys_nodup t _ (insertBin_keys_nodup m _ _ h)

/-- A bin representative's x coordinate is its key times the bin size. -/
theorem binRep_fst {k : ℤ} {ys : List ℚ} {pt : ℚ × ℚ}
    (h : binRep k ys = some pt) : pt.1 = (k : ℚ) * BIN_SIZE := by
  unfold binRep at h
  dsimp only at h
  split at h
  · exact absurd h (by simp)
  · split at h
    · split at h
      · exact absurd h (by simp)
      · rw [← Option.some_inj.mp h]
    · split at h
      · exact absurd h (by simp)
      · rw [← Option.some_inj.mp h]

/-- Distinct bin keys give distinct representative x coordinates. -/
theorem binPoints_keys_nodup :
    ∀ (l : List (ℤ × List ℚ)), (l.map Prod.fst).Nodup →
      ((l.filterMap fun e => binRep e.1 e.2).map Prod.fst).Nodup
  | [], _ => by simp
  | e :: t, hnd => by
      rw [List.map_cons] at hnd
      obtain ⟨he, hnd'⟩ := List.nodup_cons.mp hnd
      rw [List.filterMap_cons]
      cases hb : binRep e.1 e.2 with
      | none =>
          dsimp only
          exact binPoints_keys_nodup t hnd'
      | some pt =>
          dsimp only
          rw [List.map_cons]
          refine List.nodup_cons.mpr ⟨?_, binPoints_keys_nodup t hnd'⟩
          intro hmem
          rw [List.mem_map] at hmem
          obtain ⟨q, hq, hqf⟩ := hmem
          rw [List.mem_filterMap] at hq
          obtain ⟨e', he', hbe'⟩ := hq
          have hx1 : pt.1 = (e.1 : ℚ) * BIN_SIZE := binRep_fst hb
          have hx2 : q.1 = (e'.1 : ℚ) * BIN_SIZE := binRep_fst hbe'
          have hkeys : (e'.1 : ℚ) = (e.1 : ℚ) := by
            have hm : (e'.1 : ℚ) * BIN_SIZE = (e.1 : ℚ) * BIN_SIZE := by
              rw [← hx2, hqf, hx1]
            exact mul_right_cancel₀ (by norm_num [BIN_SIZE]) hm
          have hkey : e'.1 = e.1 := by exact_mod_cast hkeys
          have hem := List.mem_map_of_mem Prod.fst he'
          rw [hkey] at hem
          exact absurd hem he

/-- The sorted per-bin representatives do not depend on the binning map's
iteration order. -/
theorem mkFinal_perm_eq (rb1 rb2 : List (ℤ × List ℚ) → List (ℤ × List ℚ))
    (h1 : ∀ l, (rb1 l).Perm l) (h2 : ∀ l, (rb2 l).Perm l)
    (entry : String × List (ℚ × ℚ)) :
    mkFinal rb1 entry = mkFinal rb2 entry := by
  unfold mkFinal
  dsimp only
  rw [foldl_binRep_append, foldl_binRep_append, List.nil_append, List.nil_append]
  have ht : IsTotal (ℚ × ℚ) (fun a b => a.1 ≤ b.1) := ⟨fun a b => le_total a.1 b.1⟩
  have htr : IsTrans (ℚ × ℚ) (fun a b => a.1 ≤ b.1) :=
    ⟨fun a b c hab hbc => le_trans hab hbc⟩
  have hperm : ((rb1 (entry.2.foldl
        (fun m p => insertBin m (rustRound (p.1 / BIN_SIZE)) p.2) [])).filterMap
        fun e => binRep e.1 e.2).Perm
      ((rb2 (entry.2.foldl
        (fun m p => insertBin m (rustRound (p.1 / BIN_SIZE)) p.2) [])).filterMap
        fun e => binRep e.1 e.2) :=
    ((h1 _).filterMap _).trans ((h2 _).filterMap _).symm
  have hdata : ((entry.2.foldl
      (fun m p => insertBin m (rustRound (p.1 / BIN_SIZE)) p.2) []).map
        Prod.fst).Nodup :=
    foldl_insertBin_keys_nodup entry.2 [] (by simp)
  have hrb : ((rb1 (entry.2.foldl
      (fun m p => insertBin m (rustRound (p.1 / BIN_SIZE)) p.2) [])).map
        Prod.fst).Nodup :=
    ((h1 _).map Prod.fst).nodup_iff.mpr hdata
  apply sorted_keys_perm_eq
  · exact (List.perm_insertionSort _ _).trans
      (hperm.trans (List.perm_insertionSort _ _).symm)
  · exact @List.sorted_insertionSort (ℚ × ℚ) (fun a b => a.1 ≤ b.1) _ ht htr _
  · exact @List.sorted_insertionSort (ℚ × ℚ) (fun a b => a.1 ≤ b.1) _ ht htr _
  · exact ((List.perm_insertionSort _ _).map Prod.fst).nodup_iff.mpr
      (binPoints_keys_nodup _ hrb)

/-- A base color's curve does not depend on the binning map's iteration
order. -/
theorem mkCurve_perm_eq (rb1 rb2 : List (ℤ × List ℚ) → List (ℤ × List ℚ))
    (h1 : ∀ l, (rb1 l).Perm l) (h2 : ∀ l, (rb2 l).Perm l)
    (config : GraphConfig) (entry : String × List (ℚ × ℚ)) :
    mkCurve rb1 config entry = mkCurve rb2 config entry := by
  unfold mkCurve
  rw [mkFinal_perm_eq rb1 rb2 h1 h2 entry]

/-- The curves list of `extract_curves`, written as the fold that builds it. -/
theorem extract_curves_curves
    (reorderBase : List (String × List (ℚ × ℚ)) → List (String × List (ℚ × ℚ)))
    (reorderBins : List (ℤ × List ℚ) → List (ℤ × List ℚ))
    (image : RgbImage) (selected_colors : List String) (config : GraphConfig)
    (lnF expF : ℚ → ℚ) :
    (extract_curves reorderBase reorderBins image selected_colors config
        lnF expF).curves =
      ((reorderBase (selected_colors.foldl (colorPass image config lnF expF)
        [])).foldl (curveStep reorderBins config) ([], [])).1 := rfl

/-- C2 (amended): `extract_curves` and `detect_colors` are deterministic
only up to their `HashMap`s' iteration orders.  For any two enumerations
of the palette map, and any two iteration orders of the per-base-color
and binning maps (modelled as arbitrary permutation-realising reorder
functions), the detected colors are permutations of each other and the
returned curve lists are permutations of each other: the emitted
multisets do not depend on the orders.  The output order itself does
(counterexample claim_C2_counterexample), because the source's
`HashMap`s use a randomly seeded hasher. -/
theorem claim_C2_multiset_deterministic (image : RgbImage)
    (o1 o2 : List (String × ColorRange))
    (ho1 : o1.Perm get_color_ranges) (ho2 : o2.Perm get_color_ranges)
    (reorderBase1 reorderBase2 :
      List (String × List (ℚ × ℚ)) → List (String × List (ℚ × ℚ)))
    (reorderBins1 reorderBins2 : List (ℤ × List ℚ) → List (ℤ × List ℚ))
    (hB1 : ∀ l, (reorderBase1 l).Perm l) (hB2 : ∀ l, (reorderBase2 l).Perm l)
    (hb1 : ∀ l, (reorderBins1 l).Perm l) (hb2 : ∀ l, (reorderBins2 l).Perm l)
    (selected_colors : List String) (config : GraphConfig) (lnF expF : ℚ → ℚ) :
    (detect_colors o1 image).Perm (detect_colors o2 image) ∧
    (extract_curves reorderBase1 reorderBins1 image selected_colors config
      lnF expF).curves.Perm
      (extract_curves reorderBase2 reorderBins2 image selected_colors config
        lnF expF).curves := by
  refine ⟨detect_colors_multiset_deterministic image o1 o2 ho1 ho2, ?_⟩
  rw [extract_curves_curves, extract_curves_curves]
  rw [foldl_curveStep_filter, foldl_curveStep_filter]
  rw [List.nil_append, List.nil_append]
  have hfun : mkCurve reorderBins1 config = mkCurve reorderBins2 config :=
    funext fun e => mkCurve_perm_eq reorderBins1 reorderBins2 hb1 hb2 config e
  rw [hfun]
  exact (((hB1 _).trans (hB2 _).symm).filter _).map _

/-- Witness for the amended C2 at concrete palette enumerations (forward
and reversed) and concrete reorderings (identity and reversal). -/
theorem claim_C2_multiset_witness :
    List.Perm get_color_ranges get_color_ranges ∧
    List.Perm get_color_ranges.reverse get_color_ranges ∧
    ((detect_colors get_color_ranges img2x2red).Perm
        (detect_colors get_color_ranges.reverse img2x2red) ∧
      (extract_curves id id img2x2red ["red"] cfgLinear id id).curves.Perm
        (extract_curves (fun l => l.reverse) (fun l => l.reverse) img2x2red
          ["red"] cfgLinear id id).curves) := by
  refine ⟨by decide, by decide, ?_⟩
  exact claim_C2_multiset_deterministic img2x2red get_color_ranges
    get_color_ranges.reverse (by decide) (by decide) id (fun l => l.reverse)
    id (fun l => l.reverse) (fun l => List.Perm.refl l)
    (fun l => List.reverse_perm l) (fun l => List.Perm.refl l)
    (fun l => List.reverse_perm l) ["red"] cfgLinear id id

/-- Witness for C10 on a concrete 5×5 mask holding a 3×3 block (bits of
rows and columns 1..3): the opened mask keeps the centre pixel, which is
indeed true in the input. -/
theorem claim_C10_witness :
    (morphological_open 473536 5 5).testBit 12 = true ∧
      (473536 : ℕ).testBit 12 = true := by
  refine ⟨by decide, ?_⟩
  exact claim_C10_open_anti_extensive 473536 5 5 12 (by decide)

/-! ## Claim C4: the total_points accounting -/

/-- The synthetic per-base-color point cloud of the C4 divergence: a red
cloud giving two bins and a blue cloud giving one. -/
def c4entries : List (String × List (ℚ × ℚ)) :=
  [("red", [(0, 1/2), (1/100, 1/2)]), ("blue", [(0, 1/2)])]

/-- C4 (code bug): the source's `total_points: final_points.len()` (line
603) reads a local variable of the per-base-color loop after the loop, so
the file does not compile as written; under the natural hoisted-declaration
reading embedded here, `total_points` is the point count of the *last*
base color processed, not the sum of the curves' point counts.  On a
point cloud giving a 2-point red curve and then a 1-point blue curve, the
loop state ends with `total_points = 1` while the point counts sum to 3. -/
theorem claim_C4_total_points_is_last_not_sum :
    (c4entries.foldl (curveStep id cfgLinear) ([], [])).2.length = 1 ∧
    ((c4entries.foldl (curveStep id cfgLinear) ([], [])).1.map
      (fun c => c.point_count.getD 0)).sum = 3 := by
  refine ⟨by decide, by decide⟩

/-! ## Claim C7: the component size gate -/

/-- One 8-neighbour step inside a mask: both pixels are in bounds and
mask-true, and their coordinates differ by at most one in each direction. -/
def maskStep (m w h i j : ℕ) : Prop :=
  i < w * h ∧ j < w * h ∧ m.testBit i = true ∧ m.testBit j = true ∧
    (((i % w : ℕ) : ℤ) - ((j % w : ℕ) : ℤ)).natAbs ≤ 1 ∧
    (((i / w : ℕ) : ℤ) - ((j / w : ℕ) : ℤ)).natAbs ≤ 1 ∧ i ≠ j

/-- 8-connectivity inside a mask: the reflexive-transitive closure of
`maskStep`.  The connected component of `i` is the set of pixels connected
to it. -/
def maskConn (m w h i j : ℕ) : Prop := Relation.ReflTransGen (maskStep m w h) i j

theorem maskStep_symm {m w h : ℕ} : ∀ {i j : ℕ}, maskStep m w h i j → maskStep m w h j i := by
  intro i j ⟨h1, h2, h3, h4, h5, h6, h7⟩
  exact ⟨h2, h1, h4, h3, by omega, by omega, h7.symm⟩

theorem maskConn_symm {m w h i j : ℕ} (hc : maskConn m w h i j) : maskConn m w h j i := by
  induction hc with
  | refl => exact Relation.ReflTransGen.refl
  | tail _ hstep ih =>
    exact Relation.ReflTransGen.trans
      (Relation.ReflTransGen.single (maskStep_symm hstep)) ih

theorem maskConn_bound {m w h i j : ℕ} (hc : maskConn m w h i j) :
    j = i ∨ j < w * h := by
  rcases Relation.ReflTransGen.cases_tail hc with heq | ⟨c, _, hstep⟩
  · exact Or.inl heq
  · exact Or.inr hstep.2.1

/-- Index arithmetic: row-major packing of in-range coordinates. -/
theorem pack_lt {w h cx cy : ℕ} (hx : cx < w) (hy : cy < h) : cy * w + cx < w * h := by
  calc cy * w + cx < cy * w + w := by omega
    _ = (cy + 1) * w := by ring
    _ ≤ h * w := Nat.mul_le_mul_right w hy
    _ = w * h := Nat.mul_comm h w

theorem pack_mod {w cx cy : ℕ} (hx : cx < w) : (cy * w + cx) % w = cx := by
  rw [Nat.mul_comm, Nat.mul_add_mod, Nat.mod_eq_of_lt hx]

theorem pack_div {w cx cy : ℕ} (hx : cx < w) : (cy * w + cx) / w = cy := by
  rw [Nat.mul_comm, Nat.mul_add_div (by omega), Nat.div_eq_of_lt hx, Nat.add_zero]

/-- Marking a component in the result bitset: a bit is set afterwards iff
it was set before or belongs to the component list. -/
theorem testBit_foldl_or (comp : List ℕ) (r : ℕ) (j : ℕ) :
    (comp.foldl (fun acc i => acc ||| 2 ^ i) r).testBit j = true ↔
      r.testBit j = true ∨ j ∈ comp := by
  induction comp generalizing r with
  | nil => simp
  | cons a t ih =>
    rw [List.foldl_cons, ih]
    rw [Nat.testBit_or]
    constructor
    · rintro (hor | hm)
      · rcases Bool.or_eq_true _ _ |>.mp hor with hr | hp
        · exact Or.inl hr
        · rw [Nat.testBit_two_pow] at hp
          simp at hp
          exact Or.inr (by simp [hp])
      · exact Or.inr (by simp [hm])
    · rintro (hr | hm)
      · exact Or.inl (by simp [hr])
      · rcases List.mem_cons.mp hm with rfl | ht
        · exact Or.inl (by simp [Nat.testBit_two_pow])
        · exact Or.inr ht

/-- The in-bounds and adjacency facts about pushed neighbours. -/
theorem offs8_bounds : ∀ o ∈ offs8, ((-1 ≤ o.1 ∧ o.1 ≤ 1) ∧ (-1 ≤ o.2 ∧ o.2 ≤ 1)) ∧
    ¬ (o.1 = 0 ∧ o.2 = 0) := by decide

theorem neighborsOf_step {m w h cx cy : ℕ} (hx : cx < w) (hy : cy < h)
    (hmask : m.testBit (cy * w + cx) = true) :
    ∀ p ∈ neighborsOf w h cx cy, p.1 < w ∧ p.2 < h ∧
      (m.testBit (p.2 * w + p.1) = true →
        maskStep m w h (cy * w + cx) (p.2 * w + p.1)) := by
  intro p hp
  unfold neighborsOf at hp
  rw [List.mem_filterMap] at hp
  obtain ⟨o, ho, hcond⟩ := hp
  obtain ⟨⟨⟨ho1, ho2⟩, ho3, ho4⟩, ho5⟩ := offs8_bounds o ho
  by_cases hb : 0 ≤ (cx : ℤ) + o.2 ∧ (cx : ℤ) + o.2 < (w : ℤ) ∧
      0 ≤ (cy : ℤ) + o.1 ∧ (cy : ℤ) + o.1 < (h : ℤ)
  swap
  · rw [if_neg hb] at hcond; exact absurd hcond (by simp)
  rw [if_pos hb] at hcond
  obtain ⟨hb1, hb2, hb3, hb4⟩ := hb
  have hpx : p.1 = ((cx : ℤ) + o.2).toNat := by rw [← Option.some_inj.mp hcond]
  have hpy : p.2 = ((cy : ℤ) + o.1).toNat := by rw [← Option.some_inj.mp hcond]
  have hxlt : p.1 < w := by omega
  have hylt : p.2 < h := by omega
  refine ⟨hxlt, hylt, fun hmj => ?_⟩
  have hne : cy * w + cx ≠ p.2 * w + p.1 := by
    intro heq
    have e1 : (cy * w + cx) % w = cx := pack_mod hx
    have e2 : (p.2 * w + p.1) % w = p.1 := pack_mod hxlt
    have e3 : (cy * w + cx) / w = cy := pack_div hx
    have e4 : (p.2 * w + p.1) / w = p.2 := pack_div hxlt
    have : cx = p.1 ∧ cy = p.2 := by
      constructor
      · rw [← e1, ← e2, heq]
      · rw [← e3, ← e4, heq]
    omega
  refine ⟨pack_lt hx hy, pack_lt hxlt hylt, hmask, hmj, ?_, ?_, hne⟩
  · rw [pack_mod hx, pack_mod hxlt]; omega
  · rw [pack_div hx, pack_div hxlt]; omega

/-- Soundness of the stack-based search: starting from in-bounds stack
entries connected to `start`, every index the search collects into its
component is a mask-true, in-bounds pixel connected to `start`; the
component has no duplicates and all its members are marked visited. -/
theorem dfsLoop_sound (m w h start : ℕ) :
    ∀ (fuel : ℕ) (stack : List (ℕ × ℕ)) (visited : ℕ) (comp : List ℕ),
      (∀ p ∈ stack, p.1 < w ∧ p.2 < h ∧
        (m.testBit (p.2 * w + p.1) = true → maskConn m w h start (p.2 * w + p.1))) →
      (∀ i ∈ comp, m.testBit i = true ∧ maskConn m w h start i ∧ i < w * h ∧
        visited.testBit i = true) →
      comp.Nodup →
      (∀ i ∈ (dfsLoop m w h fuel stack visited comp).2,
        m.testBit i = true ∧ maskConn m w h start i ∧ i < w * h ∧
          (dfsLoop m w h fuel stack visited comp).1.testBit i = true) ∧
      (dfsLoop m w h fuel stack visited comp).2.Nodup
  | fuel, [], visited, comp, _, hcomp, hnd => by
      rw [show dfsLoop m w h fuel [] visited comp = (visited, comp) from by
        cases fuel <;> rfl]
      exact ⟨hcomp, hnd⟩
  | 0, (cx, cy) :: rest, visited, comp, _, hcomp, hnd => by
      rw [show dfsLoop m w h 0 ((cx, cy) :: rest) visited comp = (visited, comp) from rfl]
      exact ⟨hcomp, hnd⟩
  | fuel + 1, (cx, cy) :: rest, visited, comp, hstack, hcomp, hnd => by
      obtain ⟨hcx, hcy, hconn⟩ := hstack (cx, cy) (by simp)
      by_cases hskip :
          (visited.testBit (cy * w + cx) || !(m.testBit (cy * w + cx))) = true
      · rw [show dfsLoop m w h (fuel + 1) ((cx, cy) :: rest) visited comp
              = dfsLoop m w h fuel rest visited comp from by
            simp only [dfsLoop]; rw [if_pos hskip]]
        exact dfsLoop_sound m w h start fuel rest visited comp
          (fun p hp => hstack p (by simp [hp])) hcomp hnd
      · have hparts : visited.testBit (cy * w + cx) = false ∧
            m.testBit (cy * w + cx) = true := by
          cases hv : visited.testBit (cy * w + cx) <;>
            cases hm2 : m.testBit (cy * w + cx) <;>
              simp [hv, hm2] at hskip ⊢
        have hvis := hparts.1
        have hmask := hparts.2
        have hconn' : maskConn m w h start (cy * w + cx) := hconn hmask
        rw [show dfsLoop m w h (fuel + 1) ((cx, cy) :: rest) visited comp
            = dfsLoop m w h fuel ((neighborsOf w h cx cy).reverse ++ rest)
                (visited ||| 2 ^ (cy * w + cx)) (comp ++ [cy * w + cx]) from by
          simp only [dfsLoop]; rw [if_neg hskip]]
        refine dfsLoop_sound m w h start fuel _ _ _ ?_ ?_ ?_
        · intro p hp
          rcases List.mem_append.mp hp with hnb | hr
          · rw [List.mem_reverse] at hnb
            obtain ⟨h1, h2, h3⟩ := neighborsOf_step hcx hcy hmask p hnb
            exact ⟨h1, h2, fun hmj => Relation.ReflTransGen.tail hconn' (h3 hmj)⟩
          · exact hstack p (by simp [hr])
        · intro i hi
          rcases List.mem_append.mp hi with hic | hinew
          · obtain ⟨ha, hb, hc, hd⟩ := hcomp i hic
            exact ⟨ha, hb, hc, by rw [Nat.testBit_or]; simp [hd]⟩
          · rw [List.mem_singleton.mp hinew]
            exact ⟨hmask, hconn', pack_lt hcx hcy,
              by rw [Nat.testBit_or]; simp [Nat.testBit_two_pow]⟩
        · rw [List.nodup_append]
          refine ⟨hnd, List.nodup_singleton _, ?_⟩
          intro a ha hb
          rw [List.mem_singleton.mp hb] at ha
          have := (hcomp _ ha).2.2.2
          rw [hvis] at this
          exact Bool.false_ne_true this

/-- The marked-pixel property: the pixel belongs to some set of at least
`min_size` pixels, all connected to it inside the mask. -/
def inBigComponent (m w h min_size j : ℕ) : Prop :=
  ∃ s : Finset ℕ, j ∈ s ∧ min_size ≤ s.card ∧ ∀ i ∈ s, maskConn m w h j i

/-- One outer-loop step preserves the marking invariant: any newly set
result bit belongs to a discovered component of size at least `min_size`. -/
theorem ccNext_sound (m w h min_size idx : ℕ) (st : ℕ × ℕ) (hidx : idx < h * w)
    (hres : ∀ j, st.2.testBit j = true → inBigComponent m w h min_size j) :
    ∀ j, (ccNext m w h min_size idx st).2.testBit j = true →
      inBigComponent m w h min_size j := by
  intro j hj
  unfold ccNext at hj
  by_cases hc : (m.testBit idx && !(st.1.testBit idx)) = true
  swap
  · rw [if_neg hc] at hj; exact hres j hj
  rw [if_pos hc] at hj
  dsimp only at hj
  have hw : 0 < w := by
    rcases Nat.eq_zero_or_pos w with hw0 | hw0
    · rw [hw0] at hidx; omega
    · exact hw0
  have hxw : idx % w < w := Nat.mod_lt idx hw
  have hyh : idx / w < h := by
    rw [Nat.div_lt_iff_lt_mul hw]
    omega
  have hpack : idx / w * w + idx % w = idx := by
    rw [Nat.mul_comm]
    exact Nat.div_add_mod idx w
  have hsound := dfsLoop_sound m w h idx (9 * w * h + 9)
    [(idx % w, idx / w)] st.1 []
    (by
      intro p hp
      rw [List.mem_singleton.mp hp]
      refine ⟨hxw, hyh, fun _ => ?_⟩
      dsimp only
      rw [hpack]
      exact Relation.ReflTransGen.refl)
    (by intro i hi; exact absurd hi (List.not_mem_nil i))
    List.nodup_nil
  set dfs := dfsLoop m w h (9 * w * h + 9) [(idx % w, idx / w)] st.1 [] with hdfs
  by_cases hlen : min_size ≤ dfs.2.length
  swap
  · rw [if_neg hlen] at hj; exact hres j hj
  rw [if_pos hlen] at hj
  by_cases hasp : (3/10 : ℚ) <
      ((dfs.2.foldl (fun a i => Nat.max a (i % w)) 0 -
        dfs.2.foldl (fun a i => Nat.min a (i % w)) w + 1 : ℕ) : ℚ) /
      ((dfs.2.foldl (fun a i => Nat.max a (i / w)) 0 -
        dfs.2.foldl (fun a i => Nat.min a (i / w)) h + 1 : ℕ) : ℚ) ∧
      ((dfs.2.foldl (fun a i => Nat.max a (i % w)) 0 -
        dfs.2.foldl (fun a i => Nat.min a (i % w)) w + 1 : ℕ) : ℚ) /
      ((dfs.2.foldl (fun a i => Nat.max a (i / w)) 0 -
        dfs.2.foldl (fun a i => Nat.min a (i / w)) h + 1 : ℕ) : ℚ) < 10
  swap
  · rw [if_neg hasp] at hj; exact hres j hj
  rw [if_pos hasp] at hj
  rcases (testBit_foldl_or dfs.2 st.2 j).mp hj with hold | hmem
  · exact hres j hold
  · refine ⟨dfs.2.toFinset, List.mem_toFinset.mpr hmem, ?_, ?_⟩
    · rw [List.toFinset_card_of_nodup hsound.2]
      exact hlen
    · intro i hi
      have hjc := (hsound.1 j hmem).2.1
      have hic := (hsound.1 i (List.mem_toFinset.mp hi)).2.1
      exact Relation.ReflTransGen.trans (maskConn_symm hjc) hic

/-- The outer component loop preserves the marking invariant. -/
theorem ccLoop_sound (m w h min_size : ℕ) :
    ∀ (l : List ℕ) (st : ℕ × ℕ),
      (∀ idx ∈ l, idx < h * w) →
      (∀ j, st.2.testBit j = true → inBigComponent m w h min_size j) →
      ∀ j, (ccLoop m w h min_size l st).2.testBit j = true →
        inBigComponent m w h min_size j
  | [], st, _, hres, j, hj => hres j hj
  | idx :: rest, st, hl, hres, j, hj => by
      rw [show ccLoop m w h min_size (idx :: rest) st
          = ccLoop m w h min_size rest (ccNext m w h min_size idx st) from rfl] at hj
      exact ccLoop_sound m w h min_size rest (ccNext m w h min_size idx st)
        (fun i hi => hl i (by simp [hi]))
        (ccNext_sound m w h min_size idx st (hl idx (by simp)) hres) j hj

/-- C7: `filter_connected_components`, called with the minimum size
`max(1000, ⌊W·H / 1000⌋)` that `extract_curves` computes (`u32` product,
hence the `% 2 ^ 32`), never keeps a pixel whose 8-connected component
inside the mask has fewer than 1000 pixels. -/
theorem claim_C7_small_components_rejected (m w h idx : ℕ)
    (hsmall : Set.ncard {j | maskConn m w h idx j} < 1000) :
    (filter_connected_components m w h
      (Nat.max (w * h % 2 ^ 32 / 1000) 1000)).testBit idx = false := by
  by_contra hcon
  rw [Bool.not_eq_false] at hcon
  unfold filter_connected_components at hcon
  have hmark := ccLoop_sound m w h (Nat.max (w * h % 2 ^ 32 / 1000) 1000)
    (List.range (h * w)) (0, 0)
    (fun i hi => List.mem_range.mp hi)
    (by intro j hj; rw [Nat.zero_testBit] at hj; exact absurd hj (by simp))
    idx hcon
  obtain ⟨s, hjs, hcard, hconn⟩ := hmark
  have hsub : (s : Set ℕ) ⊆ {j | maskConn m w h idx j} := by
    intro i hi
    exact hconn i hi
  have hfin : {j | maskConn m w h idx j}.Finite := by
    refine Set.Finite.subset (Set.Finite.insert idx (Set.finite_Iio (w * h))) ?_
    intro j hj
    rcases maskConn_bound hj with rfl | hlt
    · exact Set.mem_insert _ _
    · exact Set.mem_insert_of_mem _ hlt
  have hge : 1000 ≤ Set.ncard {j | maskConn m w h idx j} := by
    calc 1000 ≤ Nat.max (w * h % 2 ^ 32 / 1000) 1000 := Nat.le_max_right _ _
      _ ≤ s.card := hcard
      _ = Set.ncard (s : Set ℕ) := (Set.ncard_coe_Finset s).symm
      _ ≤ Set.ncard {j | maskConn m w h idx j} := Set.ncard_le_ncard hsub hfin
  omega

/-- Witness for C7 on the 5×5 mask holding a 3×3 block: the component of
pixel 12 has at most 26 pixels, so pixel 12 is rejected. -/
theorem claim_C7_witness :
    Set.ncard {j | maskConn 473536 5 5 12 j} < 1000 ∧
    (filter_connected_components 473536 5 5
      (Nat.max (5 * 5 % 2 ^ 32 / 1000) 1000)).testBit 12 = false := by
  have hsmall : Set.ncard {j | maskConn 473536 5 5 12 j} < 1000 := by
    have hsub : {j | maskConn 473536 5 5 12 j} ⊆ insert 12 (Set.Iio 25) := by
      intro j hj
      rcases maskConn_bound hj with rfl | hlt
      · exact Set.mem_insert _ _
      · exact Set.mem_insert_of_mem _ hlt
    calc Set.ncard {j | maskConn 473536 5 5 12 j}
        ≤ Set.ncard (insert 12 (Set.Iio 25)) := by
          refine Set.ncard_le_ncard hsub ?_
          exact Set.Finite.insert 12 (Set.finite_Iio 25)
      _ ≤ Set.ncard (Set.Iio 25) + 1 := Set.ncard_insert_le _ _
      _ < 1000 := by
          rw [← Finset.coe_Iio, Set.ncard_coe_Finset, Nat.card_Iio]
          norm_num
  exact ⟨hsmall, claim_C7_small_components_rejected 473536 5 5 12 hsmall⟩

/-! ## Claim C3: sortedness of the extracted points in x -/

/-- The out-of-range default for indexing into a curve's point list. -/
def junkPoint : CurvePoint := { x := 0, y := 0, label := none, confidence := none }

/-- The out-of-range default for indexing into the curves list. -/
def junkCurve : CurveData :=
  { name := "", color := "", points := [], representation := none,
    point_count := none, metadata := none }

/-- `savgol_smooth` preserves the length of its input. -/
theorem savgol_length (data : List ℚ) (window : ℕ) :
    (savgol_smooth data window).length = data.length := by
  unfold savgol_smooth
  split
  · rfl
  · simp

/-- The x projection of the zipped and labelled point list is the left
input; it inherits that list's sortedness. -/
theorem sorted_points_x (l ys : List ℚ) (hl : l.Pairwise (· ≤ ·))
    (hlen : l.length ≤ ys.length) :
    (((l.zip ys).map fun p =>
        ({ x := p.1, y := p.2, label := some (fmt3 p.1 ++ ", " ++ fmt3 p.2),
           confidence := none } : CurvePoint)).map CurvePoint.x).Pairwise (· ≤ ·) := by
  rw [List.map_map]
  have hcomp : (CurvePoint.x ∘ fun p : ℚ × ℚ =>
      ({ x := p.1, y := p.2, label := some (fmt3 p.1 ++ ", " ++ fmt3 p.2),
         confidence := none } : CurvePoint)) = Prod.fst := rfl
  rw [hcomp, List.map_fst_zip l ys hlen]
  exact hl

/-- The sorted per-bin x values, scaled by a nonnegative factor, stay
sorted nondecreasing. -/
theorem scaled_sorted (fp : List (ℚ × ℚ)) (s : ℚ) (hs : 0 ≤ s) :
    (((fp.insertionSort fun a b => a.1 ≤ b.1).map Prod.fst).map fun x => x * s).Pairwise
      (· ≤ ·) := by
  have ht : IsTotal (ℚ × ℚ) (fun a b => a.1 ≤ b.1) := ⟨fun a b => le_total a.1 b.1⟩
  have htr : IsTrans (ℚ × ℚ) (fun a b => a.1 ≤ b.1) :=
    ⟨fun a b c hab hbc => le_trans hab hbc⟩
  have hsorted : (fp.insertionSort fun a b => a.1 ≤ b.1).Pairwise
      fun a b : ℚ × ℚ => a.1 ≤ b.1 :=
    @List.sorted_insertionSort (ℚ × ℚ) (fun a b => a.1 ≤ b.1) _ ht htr fp
  have h1 : ((fp.insertionSort fun a b => a.1 ≤ b.1).map Prod.fst).Pairwise (· ≤ ·) :=
    List.Pairwise.map Prod.fst (fun a b h => h) hsorted
  exact List.Pairwise.map _ (fun a b h => mul_le_mul_of_nonneg_right h hs) h1

/-- Every curve `curveStep` appends has its x coordinates sorted
nondecreasing, provided the x scale factor is nonnegative. -/
theorem curveStep_sorted (reorderBins : List (ℤ × List ℚ) → List (ℤ × List ℚ))
    (config : GraphConfig) (hscale : 0 ≤ config.x_scale)
    (st : List CurveData × List (ℚ × ℚ)) (entry : String × List (ℚ × ℚ))
    (hst : ∀ c ∈ st.1, (c.points.map CurvePoint.x).Pairwise (· ≤ ·)) :
    ∀ c ∈ (curveStep reorderBins config st entry).1,
      (c.points.map CurvePoint.x).Pairwise (· ≤ ·) := by
  intro c hc
  unfold curveStep at hc
  by_cases hpts : entry.2 = []
  · rw [if_pos hpts] at hc
    exact hst c hc
  · rw [if_neg hpts] at hc
    dsimp only at hc
    rcases List.mem_append.mp hc with hold | hnew
    · exact hst c hold
    · rw [List.mem_singleton.mp hnew]
      dsimp only
      apply sorted_points_x
      · exact scaled_sorted _ _ hscale
      · simp only [List.length_map]
        split
        · rw [savgol_length]
          simp
        · simp

/-- The fold of `curveStep` preserves sortedness of every produced curve. -/
theorem foldl_curveStep_sorted (reorderBins : List (ℤ × List ℚ) → List (ℤ × List ℚ))
    (config : GraphConfig) (hscale : 0 ≤ config.x_scale) :
    ∀ (l : List (String × List (ℚ × ℚ))) (st : List CurveData × List (ℚ × ℚ)),
      (∀ c ∈ st.1, (c.points.map CurvePoint.x).Pairwise (· ≤ ·)) →
      ∀ c ∈ (l.foldl (curveStep reorderBins config) st).1,
        (c.points.map CurvePoint.x).Pairwise (· ≤ ·)
  | [], _, hst => hst
  | e :: t, st, hst => by
      rw [List.foldl_cons]
      exact foldl_curveStep_sorted reorderBins config hscale t _
        (curveStep_sorted reorderBins config hscale st e hst)

/-- C3 (amended): when `config.x_scale` is nonnegative, every returned
curve's points are sorted nondecreasing in x — for every index `k`, the
`k`-th curve's x coordinates are pairwise `≤` (out-of-range indices give
the empty default curve, trivially sorted).  The claim as stated asserts
this "with no precondition on the sign of x_scale"; the counterexample
theorem refutes that stronger form with `x_scale = -1`. -/
theorem claim_C3_sorted_when_scale_nonneg
    (reorderBase : List (String × List (ℚ × ℚ)) → List (String × List (ℚ × ℚ)))
    (reorderBins : List (ℤ × List ℚ) → List (ℤ × List ℚ))
    (image : RgbImage) (selected_colors : List String) (config : GraphConfig)
    (lnF expF : ℚ → ℚ) (hscale : 0 ≤ config.x_scale) (k : ℕ) :
    ((((extract_curves reorderBase reorderBins image selected_colors config
        lnF expF).curves.getD k junkCurve).points.map CurvePoint.x).Pairwise
      (· ≤ ·)) := by
  have hall : ∀ c ∈ (extract_curves reorderBase reorderBins image selected_colors
      config lnF expF).curves, (c.points.map CurvePoint.x).Pairwise (· ≤ ·) := by
    rw [extract_curves_curves]
    refine foldl_curveStep_sorted reorderBins config hscale _ _ ?_
    intro c hc
    cases hc
  by_cases hk : k < (extract_curves reorderBase reorderBins image selected_colors
      config lnF expF).curves.length
  · refine hall _ ?_
    rw [List.getD_eq_getElem _ _ hk]
    exact List.getElem_mem hk
  · rw [List.getD_eq_default _ _ (Nat.le_of_not_lt hk)]
    exact List.Pairwise.nil

/-- Witness for the amended C3: identity reorderings, the 2×2 one-red-pixel
image and the all-linear configuration (whose `x_scale` is 1 ≥ 0), at
curve index 0. -/
theorem claim_C3_sorted_witness :
    (0 : ℚ) ≤ cfgLinear.x_scale ∧
    ((((extract_curves id id img2x2red ["red"] cfgLinear id
        id).curves.getD 0 junkCurve).points.map CurvePoint.x).Pairwise (· ≤ ·)) :=
  ⟨by decide,
   claim_C3_sorted_when_scale_nonneg id id img2x2red ["red"] cfgLinear id id
     (by decide) 0⟩

/-! ## Claim C3 counterexample: a 34×34 blue block and a negative x scale -/

/-- The 34×34 counterexample raster: a 32×32 pure blue block surrounded by
a one pixel white border. -/
def imgC3 : RgbImage :=
  { width := 34, height := 34,
    pixels := (List.range 1156).map fun idx =>
      if 1 ≤ idx % 34 ∧ idx % 34 ≤ 32 ∧ 1 ≤ idx / 34 ∧ idx / 34 ≤ 32
      then (0, 0, 255) else (255, 255, 255) }

/-- The counterexample configuration: all-linear axes, x range `[0, 1]`,
and the negative x scale factor `-1`. -/
def cfgC3 : GraphConfig :=
  { x_min := 0, x_max := 1, y_min := 0, y_max := 1, x_scale := -1, y_scale := 1,
    x_scale_type := "linear", y_scale_type := "linear", graph_type := "output",
    x_axis_name := none, y_axis_name := none }

/-- Membership in the blue block of `imgC3`. -/
def inBlockB (idx : ℕ) : Prop :=
  1 ≤ idx % 34 ∧ idx % 34 ≤ 32 ∧ 1 ≤ idx / 34 ∧ idx / 34 ≤ 32

instance (idx : ℕ) : Decidable (inBlockB idx) := by
  unfold inBlockB; infer_instance

/-- Membership in the eroded block: one further pixel in from each side. -/
def innerB (idx : ℕ) : Prop :=
  2 ≤ idx % 34 ∧ idx % 34 ≤ 31 ∧ 2 ≤ idx / 34 ∧ idx / 34 ≤ 31

instance (idx : ℕ) : Decidable (innerB idx) := by
  unfold innerB; infer_instance

set_option maxRecDepth 4000 in
/-- The color mask of the counterexample image is exactly the blue block. -/
theorem maskC3_testBit (i : ℕ) :
    (maskBits imgC3 rangeBlue).testBit i =
      (decide (i < 1156) && decide (inBlockB i)) := by
  unfold maskBits
  rw [show imgC3.width * imgC3.height = 1156 from rfl]
  rw [testBit_bitsOfFn]
  by_cases hi : i < 1156
  swap
  · rw [decide_eq_false hi, Bool.false_and, Bool.false_and]
  rw [decide_eq_true hi, Bool.true_and, Bool.true_and]
  have hlen : i < imgC3.pixels.length := by
    rw [show imgC3.pixels.length = 1156 from by
      unfold imgC3; rw [List.length_map, List.length_range]]
    exact hi
  unfold create_color_mask
  rw [List.getD_eq_getElem _ _ (by rw [List.length_map]; exact hlen)]
  rw [List.getElem_map]
  unfold imgC3
  rw [List.getElem_map, List.getElem_range]
  by_cases hb : inBlockB i
  · rw [decide_eq_true hb]
    have hb' : 1 ≤ i % 34 ∧ i % 34 ≤ 32 ∧ 1 ≤ i / 34 ∧ i / 34 ≤ 32 := hb
    rw [if_pos hb']
    decide
  · rw [decide_eq_false hb]
    have hb' : ¬ (1 ≤ i % 34 ∧ i % 34 ≤ 32 ∧ 1 ≤ i / 34 ∧ i / 34 ≤ 32) := hb
    rw [if_neg hb']
    decide

/-- The eroded mask of the counterexample image is the inner block. -/
theorem erodedC3_testBit (i : ℕ) :
    (erodeBits (maskBits imgC3 rangeBlue) 34 34).testBit i =
      (decide (i < 1156) && decide (innerB i)) := by
  rw [erodeBits_eq_spec]
  unfold erodeBitsSpec
  rw [show (34 * 34 : ℕ) = 1156 from rfl]
  rw [testBit_bitsOfFn]
  by_cases hi : i < 1156
  swap
  · rw [decide_eq_false hi, Bool.false_and, Bool.false_and]
  rw [decide_eq_true hi, Bool.true_and, Bool.true_and]
  dsimp only
  by_cases hint : 1 ≤ i % 34 ∧ i % 34 + 1 < 34 ∧ 1 ≤ i / 34 ∧ i / 34 + 1 < 34
  swap
  · rw [if_neg hint]
    have hnB : ¬ innerB i := by unfold innerB; omega
    rw [decide_eq_false hnB]
  rw [if_pos hint]
  obtain ⟨hx1, hx2, hy1, hy2⟩ := hint
  rw [Bool.eq_iff_iff, List.all_eq_true, decide_eq_true_eq]
  constructor
  · intro hall
    have ha := hall ((-1 : ℤ), (-1 : ℤ)) (by decide)
    have hb := hall ((1 : ℤ), (1 : ℤ)) (by decide)
    rw [maskC3_testBit, Bool.and_eq_true, decide_eq_true_eq, decide_eq_true_eq] at ha hb
    have hma := nIdx_mod_div (o := ((-1 : ℤ), (-1 : ℤ)))
      (by decide) (by decide) (by decide) (by decide) hx1 hx2 hy1
    have hmb := nIdx_mod_div (o := ((1 : ℤ), (1 : ℤ)))
      (by decide) (by decide) (by decide) (by decide) hx1 hx2 hy1
    unfold inBlockB at ha hb
    rw [hma.1, hma.2] at ha
    rw [hmb.1, hmb.2] at hb
    unfold innerB
    omega
  · intro hB o ho
    obtain ⟨⟨ho1, ho2⟩, ho3, ho4⟩ := offs9_bounds o ho
    rw [maskC3_testBit, Bool.and_eq_true, decide_eq_true_eq, decide_eq_true_eq]
    have hm := nIdx_mod_div (o := o) ho1 ho2 ho3 ho4 hx1 hx2 hy1
    have hlt := nIdx_lt (o := o) ho1 ho2 ho3 ho4 hx1 hx2 hy1 hy2
    unfold innerB at hB
    unfold inBlockB
    rw [hm.1, hm.2]
    refine ⟨(show (34 * 34 : ℕ) = 1156 from rfl) ▸ hlt, ?_⟩
    omega

/-- Every offset with both coordinates in `[-1, 1]` is a 9-neighbourhood
offset. -/
theorem mem_offs9_of_bounds (a b : ℤ) (h1 : -1 ≤ a) (h2 : a ≤ 1)
    (h3 : -1 ≤ b) (h4 : b ≤ 1) : (a, b) ∈ offs9 := by
  interval_cases a <;> interval_cases b <;> decide

/-- The opened mask of the counterexample image is the blue block again:
dilation restores the one-pixel rim that erosion removed. -/
theorem openedC3_testBit (i : ℕ) :
    (morphological_open (maskBits imgC3 rangeBlue) 34 34).testBit i =
      (decide (i < 1156) && decide (inBlockB i)) := by
  unfold morphological_open dilateBits
  rw [show (34 * 34 : ℕ) = 1156 from rfl]
  rw [testBit_bitsOfFn]
  by_cases hi : i < 1156
  swap
  · rw [decide_eq_false hi, Bool.false_and, Bool.false_and]
  rw [decide_eq_true hi, Bool.true_and, Bool.true_and]
  dsimp only
  by_cases hint : 1 ≤ i % 34 ∧ i % 34 + 1 < 34 ∧ 1 ≤ i / 34 ∧ i / 34 + 1 < 34
  swap
  · rw [if_neg hint]
    have hnB : ¬ inBlockB i := by unfold inBlockB; omega
    rw [decide_eq_false hnB]
  rw [if_pos hint]
  obtain ⟨hx1, hx2, hy1, hy2⟩ := hint
  have hB : inBlockB i := by unfold inBlockB; omega
  rw [decide_eq_true hB, Bool.eq_iff_iff, List.any_eq_true]
  constructor
  · intro _; trivial
  intro _
  obtain ⟨dx, hdx⟩ : ∃ d : ℤ, -1 ≤ d ∧ d ≤ 1 ∧
      2 ≤ (i % 34 : ℕ) + d ∧ (i % 34 : ℕ) + d ≤ 31 := by
    by_cases he1 : i % 34 = 1
    · exact ⟨1, by omega⟩
    · by_cases he2 : i % 34 = 32
      · exact ⟨-1, by omega⟩
      · exact ⟨0, by omega⟩
  obtain ⟨dy, hdy⟩ : ∃ d : ℤ, -1 ≤ d ∧ d ≤ 1 ∧
      2 ≤ (i / 34 : ℕ) + d ∧ (i / 34 : ℕ) + d ≤ 31 := by
    by_cases he1 : i / 34 = 1
    · exact ⟨1, by omega⟩
    · by_cases he2 : i / 34 = 32
      · exact ⟨-1, by omega⟩
      · exact ⟨0, by omega⟩
  refine ⟨(dy, dx), mem_offs9_of_bounds dy dx hdy.1 hdy.2.1 hdx.1 hdx.2.1, ?_⟩
  rw [erodedC3_testBit]
  have hm := nIdx_mod_div (o := (dy, dx)) hdy.1 hdy.2.1 hdx.1 hdx.2.1 hx1 hx2 hy1
  have hlt := nIdx_lt (o := (dy, dx)) hdy.1 hdy.2.1 hdx.1 hdx.2.1 hx1 hx2 hy1 hy2
  rw [Bool.and_eq_true, decide_eq_true_eq, decide_eq_true_eq]
  refine ⟨(show (34 * 34 : ℕ) = 1156 from rfl) ▸ hlt, ?_⟩
  unfold innerB
  rw [hm.1, hm.2]
  omega

/-! ## Completeness of the component search -/

/-- Every offset with both coordinates in `[-1, 1]`, other than the origin,
is an 8-neighbourhood offset. -/
theorem mem_offs8_of_bounds (a b : ℤ) (h1 : -1 ≤ a) (h2 : a ≤ 1)
    (h3 : -1 ≤ b) (h4 : b ≤ 1) (h5 : ¬ (a = 0 ∧ b = 0)) : (a, b) ∈ offs8 := by
  interval_cases a <;> interval_cases b <;> revert h5 <;> decide

/-- A mask step out of pixel `a` lands on a pixel whose coordinates the
search pushes from `a`'s coordinates. -/
theorem step_mem_neighborsOf {m w h a b : ℕ} (hs : maskStep m w h a b) :
    (b % w, b / w) ∈ neighborsOf w h (a % w) (a / w) := by
  obtain ⟨haw, hbw, hma, hmb, hdx, hdy, hne⟩ := hs
  have hw : 0 < w := by
    rcases Nat.eq_zero_or_pos w with h0 | h0
    · rw [h0] at haw; omega
    · exact h0
  have hamw : a % w < w := Nat.mod_lt a hw
  have hbmw : b % w < w := Nat.mod_lt b hw
  have hadw : a / w < h := by
    rw [Nat.div_lt_iff_lt_mul hw]; rw [Nat.mul_comm] at haw; exact haw
  have hbdw : b / w < h := by
    rw [Nat.div_lt_iff_lt_mul hw]; rw [Nat.mul_comm] at hbw; exact hbw
  have hnz : ¬ (((b / w : ℕ) : ℤ) - ((a / w : ℕ) : ℤ) = 0 ∧
      ((b % w : ℕ) : ℤ) - ((a % w : ℕ) : ℤ) = 0) := by
    rintro ⟨hy, hx⟩
    apply hne
    have h1 : a / w = b / w := by exact_mod_cast (sub_eq_zero.mp hy).symm
    have h2 : a % w = b % w := by exact_mod_cast (sub_eq_zero.mp hx).symm
    rw [← Nat.div_add_mod a w, ← Nat.div_add_mod b w, h1, h2]
  have e3 : ((a % w : ℕ) : ℤ) + (((b % w : ℕ) : ℤ) - ((a % w : ℕ) : ℤ))
      = ((b % w : ℕ) : ℤ) := by ring
  have e4 : ((a / w : ℕ) : ℤ) + (((b / w : ℕ) : ℤ) - ((a / w : ℕ) : ℤ))
      = ((b / w : ℕ) : ℤ) := by ring
  unfold neighborsOf
  rw [List.mem_filterMap]
  refine ⟨(((b / w : ℕ) : ℤ) - ((a / w : ℕ) : ℤ),
          ((b % w : ℕ) : ℤ) - ((a % w : ℕ) : ℤ)),
    mem_offs8_of_bounds _ _ (by omega) (by omega) (by omega) (by omega) hnz, ?_⟩
  dsimp only
  have hcond : 0 ≤ ((a % w : ℕ) : ℤ) + (((b % w : ℕ) : ℤ) - ((a % w : ℕ) : ℤ)) ∧
      ((a % w : ℕ) : ℤ) + (((b % w : ℕ) : ℤ) - ((a % w : ℕ) : ℤ)) < (w : ℤ) ∧
      0 ≤ ((a / w : ℕ) : ℤ) + (((b / w : ℕ) : ℤ) - ((a / w : ℕ) : ℤ)) ∧
      ((a / w : ℕ) : ℤ) + (((b / w : ℕ) : ℤ) - ((a / w : ℕ) : ℤ)) < (h : ℤ) := by
    rw [e3, e4]
    refine ⟨Int.natCast_nonneg _, ?_, Int.natCast_nonneg _, ?_⟩
    · exact_mod_cast hbmw
    · exact_mod_cast hbdw
  rw [if_pos hcond, e3, e4, Int.toNat_natCast, Int.toNat_natCast]

/-- The number of in-range pixels the search has not yet visited. -/
def unvisitedCount (w h visited : ℕ) : ℕ :=
  ((Finset.range (w * h)).filter fun i => visited.testBit i = false).card

/-- The coverage invariant of the search: every mask step out of a visited
pixel lands on a pixel that is itself visited or whose coordinates are on
the stack. -/
def dfsClosed (m w h visited : ℕ) (stack : List (ℕ × ℕ)) : Prop :=
  ∀ a b : ℕ, visited.testBit a = true → maskStep m w h a b →
    visited.testBit b = true ∨ (b % w, b / w) ∈ stack

/-- Visiting an unvisited in-range pixel strictly decreases the unvisited
count. -/
theorem unvisitedCount_or {w h visited cidx : ℕ} (hlt : cidx < w * h)
    (hnv : visited.testBit cidx = false) :
    unvisitedCount w h (visited ||| 2 ^ cidx) + 1 ≤ unvisitedCount w h visited := by
  unfold unvisitedCount
  have hsub : (Finset.range (w * h)).filter
        (fun i => (visited ||| 2 ^ cidx).testBit i = false) ⊆
      ((Finset.range (w * h)).filter (fun i => visited.testBit i = false)).erase
        cidx := by
    intro i hi
    rw [Finset.mem_filter] at hi
    rw [Finset.mem_erase, Finset.mem_filter]
    have hor := hi.2
    rw [Nat.testBit_or, Bool.or_eq_false_iff] at hor
    refine ⟨?_, hi.1, hor.1⟩
    intro heq
    rw [heq, Nat.testBit_two_pow_self] at hor
    exact Bool.true_eq_false.mp hor.2
  have hc := Finset.card_le_card hsub
  have hmem : cidx ∈ (Finset.range (w * h)).filter
      (fun i => visited.testBit i = false) := by
    rw [Finset.mem_filter, Finset.mem_range]; exact ⟨hlt, hnv⟩
  have hpos := Finset.card_pos.mpr ⟨cidx, hmem⟩
  have herase := Finset.card_erase_of_mem hmem
  omega

/-- The visited bitset of the search only grows. -/
theorem dfsLoop_mono (m w h : ℕ) :
    ∀ (fuel : ℕ) (stack : List (ℕ × ℕ)) (visited : ℕ) (comp : List ℕ) (a : ℕ),
      visited.testBit a = true →
      (dfsLoop m w h fuel stack visited comp).1.testBit a = true
  | fuel, [], visited, comp, a, ha => by
      rw [show dfsLoop m w h fuel [] visited comp = (visited, comp) from by
        cases fuel <;> rfl]
      exact ha
  | 0, (_, _) :: _, _, _, _, ha => ha
  | fuel + 1, (cx, cy) :: rest, visited, comp, a, ha => by
      by_cases hskip :
          (visited.testBit (cy * w + cx) || !(m.testBit (cy * w + cx))) = true
      · rw [show dfsLoop m w h (fuel + 1) ((cx, cy) :: rest) visited comp
              = dfsLoop m w h fuel rest visited comp from by
            simp only [dfsLoop]; rw [if_pos hskip]]
        exact dfsLoop_mono m w h fuel rest visited comp a ha
      · rw [show dfsLoop m w h (fuel + 1) ((cx, cy) :: rest) visited comp
              = dfsLoop m w h fuel ((neighborsOf w h cx cy).reverse ++ rest)
                  (visited ||| 2 ^ (cy * w + cx)) (comp ++ [cy * w + cx]) from by
            simp only [dfsLoop]; rw [if_neg hskip]]
        exact dfsLoop_mono m w h fuel _ _ _ a (by rw [Nat.testBit_or, ha]; rfl)

/-- The component list of the search only grows. -/
theorem dfsLoop_comp_mono (m w h : ℕ) :
    ∀ (fuel : ℕ) (stack : List (ℕ × ℕ)) (visited : ℕ) (comp : List ℕ) (i : ℕ),
      i ∈ comp → i ∈ (dfsLoop m w h fuel stack visited comp).2
  | fuel, [], visited, comp, i, hi => by
      rw [show dfsLoop m w h fuel [] visited comp = (visited, comp) from by
        cases fuel <;> rfl]
      exact hi
  | 0, (_, _) :: _, _, _, _, hi => hi
  | fuel + 1, (cx, cy) :: rest, visited, comp, i, hi => by
      by_cases hskip :
          (visited.testBit (cy * w + cx) || !(m.testBit (cy * w + cx))) = true
      · rw [show dfsLoop m w h (fuel + 1) ((cx, cy) :: rest) visited comp
              = dfsLoop m w h fuel rest visited comp from by
            simp only [dfsLoop]; rw [if_pos hskip]]
        exact dfsLoop_comp_mono m w h fuel rest visited comp i hi
      · rw [show dfsLoop m w h (fuel + 1) ((cx, cy) :: rest) visited comp
              = dfsLoop m w h fuel ((neighborsOf w h cx cy).reverse ++ rest)
                  (visited ||| 2 ^ (cy * w + cx)) (comp ++ [cy * w + cx]) from by
            simp only [dfsLoop]; rw [if_neg hskip]]
        exact dfsLoop_comp_mono m w h fuel _ _ _ i (List.mem_append_left _ hi)

/-- Every pixel the search marks visited was visited before or is collected
into the component. -/
theorem dfsLoop_new_in_comp (m w h : ℕ) :
    ∀ (fuel : ℕ) (stack : List (ℕ × ℕ)) (visited : ℕ) (comp : List ℕ) (a : ℕ),
      (dfsLoop m w h fuel stack visited comp).1.testBit a = true →
      visited.testBit a = true ∨ a ∈ (dfsLoop m w h fuel stack visited comp).2
  | fuel, [], visited, comp, a, ha => by
      rw [show dfsLoop m w h fuel [] visited comp = (visited, comp) from by
        cases fuel <;> rfl] at ha ⊢
      exact Or.inl ha
  | 0, (_, _) :: _, _, _, _, ha => Or.inl ha
  | fuel + 1, (cx, cy) :: rest, visited, comp, a, ha => by
      by_cases hskip :
          (visited.testBit (cy * w + cx) || !(m.testBit (cy * w + cx))) = true
      · rw [show dfsLoop m w h (fuel + 1) ((cx, cy) :: rest) visited comp
              = dfsLoop m w h fuel rest visited comp from by
            simp only [dfsLoop]; rw [if_pos hskip]] at ha ⊢
        exact dfsLoop_new_in_comp m w h fuel rest visited comp a ha
      · rw [show dfsLoop m w h (fuel + 1) ((cx, cy) :: rest) visited comp
              = dfsLoop m w h fuel ((neighborsOf w h cx cy).reverse ++ rest)
                  (visited ||| 2 ^ (cy * w + cx)) (comp ++ [cy * w + cx]) from by
            simp only [dfsLoop]; rw [if_neg hskip]] at ha ⊢
        rcases dfsLoop_new_in_comp m w h fuel _ _ _ a ha with hv | hc
        · rw [Nat.testBit_or, Bool.or_eq_true] at hv
          rcases hv with hv | hp
          · exact Or.inl hv
          · rw [Nat.testBit_two_pow] at hp
            rw [decide_eq_true_eq] at hp
            refine Or.inr ?_
            rw [← hp]
            exact dfsLoop_comp_mono m w h fuel _ _ _ _
              (List.mem_append_right _ (List.mem_singleton_self _))
        · exact Or.inr hc

/-- Completeness of the stack-based search: with enough fuel, the search
drains its stack; afterwards the visited set is closed under mask steps and
every mask-true stack entry has been visited. -/
theorem dfsLoop_complete (m w h : ℕ) :
    ∀ (fuel : ℕ) (stack : List (ℕ × ℕ)) (visited : ℕ) (comp : List ℕ),
      stack.length + 9 * unvisitedCount w h visited ≤ fuel →
      (∀ p ∈ stack, p.1 < w ∧ p.2 < h) →
      dfsClosed m w h visited stack →
      dfsClosed m w h (dfsLoop m w h fuel stack visited comp).1 [] ∧
      (∀ p ∈ stack, m.testBit (p.2 * w + p.1) = true →
        (dfsLoop m w h fuel stack visited comp).1.testBit (p.2 * w + p.1) = true)
  | fuel, [], visited, comp, _, _, hinv => by
      rw [show dfsLoop m w h fuel [] visited comp = (visited, comp) from by
        cases fuel <;> rfl]
      exact ⟨hinv, fun p hp => absurd hp (List.not_mem_nil p)⟩
  | 0, (cx, cy) :: rest, visited, comp, hfuel, _, _ => by
      rw [List.length_cons] at hfuel
      omega
  | fuel + 1, (cx, cy) :: rest, visited, comp, hfuel, hst, hinv => by
      have hcoords : ∀ b : ℕ, b < w * h → (b % w, b / w) = (cx, cy) →
          b = cy * w + cx := by
        intro b hb heq
        have hw : 0 < w := by
          rcases Nat.eq_zero_or_pos w with h0 | h0
          · rw [h0] at hb; omega
          · exact h0
        have h1 : b % w = cx := congrArg Prod.fst heq
        have h2 : b / w = cy := congrArg Prod.snd heq
        have e := Nat.div_add_mod b w
        rw [h1, h2] at e
        rw [← e, Nat.mul_comm]
      by_cases hskip :
          (visited.testBit (cy * w + cx) || !(m.testBit (cy * w + cx))) = true
      · rw [show dfsLoop m w h (fuel + 1) ((cx, cy) :: rest) visited comp
              = dfsLoop m w h fuel rest visited comp from by
            simp only [dfsLoop]; rw [if_pos hskip]]
        have hinv' : dfsClosed m w h visited rest := by
          intro a b ha hstep
          rcases hinv a b ha hstep with hv | hmem
          · exact Or.inl hv
          · rcases List.mem_cons.mp hmem with heq | hr
            · rw [hcoords b hstep.2.1 heq]
              cases hv2 : visited.testBit (cy * w + cx) with
              | true => exact Or.inl rfl
              | false =>
                  rw [hv2, Bool.false_or, Bool.not_eq_true'] at hskip
                  have hmb := hstep.2.2.2.1
                  rw [hcoords b hstep.2.1 heq] at hmb
                  rw [hmb] at hskip
                  exact absurd hskip (by simp)
            · exact Or.inr hr
        have hrec := dfsLoop_complete m w h fuel rest visited comp
          (by rw [List.length_cons] at hfuel; omega)
          (fun p hp => hst p (List.mem_cons_of_mem _ hp)) hinv'
        refine ⟨hrec.1, ?_⟩
        intro p hp hmp
        rcases List.mem_cons.mp hp with heq | hr
        · rw [heq] at hmp ⊢
          dsimp only at hmp ⊢
          rw [hmp] at hskip
          rw [Bool.not_true, Bool.or_false] at hskip
          exact dfsLoop_mono m w h fuel rest visited comp _ hskip
        · exact hrec.2 p hr hmp
      · have hparts : visited.testBit (cy * w + cx) = false ∧
            m.testBit (cy * w + cx) = true := by
          cases hv : visited.testBit (cy * w + cx) <;>
            cases hm2 : m.testBit (cy * w + cx) <;>
              simp [hv, hm2] at hskip ⊢
        obtain ⟨hcx, hcy⟩ := hst (cx, cy) (List.mem_cons_self _ _)
        have hclt : cy * w + cx < w * h := pack_lt hcx hcy
        rw [show dfsLoop m w h (fuel + 1) ((cx, cy) :: rest) visited comp
            = dfsLoop m w h fuel ((neighborsOf w h cx cy).reverse ++ rest)
                (visited ||| 2 ^ (cy * w + cx)) (comp ++ [cy * w + cx]) from by
          simp only [dfsLoop]; rw [if_neg hskip]]
        have hfuel' : ((neighborsOf w h cx cy).reverse ++ rest).length +
            9 * unvisitedCount w h (visited ||| 2 ^ (cy * w + cx)) ≤ fuel := by
          have hnb : (neighborsOf w h cx cy).length ≤ 8 := by
            unfold neighborsOf
            exact le_trans (List.length_filterMap_le _ _) (by decide)
          have hu := unvisitedCount_or hclt hparts.1
          rw [List.length_append, List.length_reverse]
          rw [List.length_cons] at hfuel
          omega
        have hst' : ∀ p ∈ (neighborsOf w h cx cy).reverse ++ rest,
            p.1 < w ∧ p.2 < h := by
          intro p hp
          rcases List.mem_append.mp hp with hnb | hr
          · rw [List.mem_reverse] at hnb
            obtain ⟨h1, h2, _⟩ := neighborsOf_step hcx hcy hparts.2 p hnb
            exact ⟨h1, h2⟩
          · exact hst p (List.mem_cons_of_mem _ hr)
        have hinv' : dfsClosed m w h (visited ||| 2 ^ (cy * w + cx))
            ((neighborsOf w h cx cy).reverse ++ rest) := by
          intro a b ha hstep
          rw [Nat.testBit_or, Bool.or_eq_true] at ha
          rcases ha with hva | hpa
          · rcases hinv a b hva hstep with hv | hmem
            · refine Or.inl ?_
              rw [Nat.testBit_or, hv]; rfl
            · rcases List.mem_cons.mp hmem with heq | hr
              · refine Or.inl ?_
                rw [hcoords b hstep.2.1 heq, Nat.testBit_or,
                  Nat.testBit_two_pow_self]
                rw [Bool.or_true]
              · exact Or.inr (List.mem_append_right _ hr)
          · rw [Nat.testBit_two_pow, decide_eq_true_eq] at hpa
            refine Or.inr (List.mem_append_left _ ?_)
            rw [List.mem_reverse]
            have hstep' : maskStep m w h (cy * w + cx) b := by rw [hpa]; exact hstep
            have := step_mem_neighborsOf hstep'
            rw [pack_mod hcx, pack_div hcx] at this
            exact this
        have hrec := dfsLoop_complete m w h fuel _ _ (comp ++ [cy * w + cx])
          hfuel' hst' hinv'
        refine ⟨hrec.1, ?_⟩
        intro p hp hmp
        rcases List.mem_cons.mp hp with heq | hr
        · rw [heq]
          dsimp only
          refine dfsLoop_mono m w h fuel _ _ _ _ ?_
          rw [Nat.testBit_or, Nat.testBit_two_pow_self, Bool.or_true]
        · exact hrec.2 p (List.mem_append_right _ hr) hmp

/-! ## The block component of the counterexample mask -/

/-- The opened mask of the counterexample image. -/
def openedC3 : ℕ := morphological_open (maskBits imgC3 rangeBlue) 34 34

/-- `openedC3_testBit`, restated over the abbreviation. -/
theorem openedC3_bit (i : ℕ) :
    openedC3.testBit i = (decide (i < 1156) && decide (inBlockB i)) :=
  openedC3_testBit i

set_option maxRecDepth 10000 in
/-- The blue block holds 1024 pixels. -/
theorem cardC3block : ((Finset.range 1156).filter fun i => inBlockB i).card = 1024 := by
  decide

/-- Any two distinct 8-adjacent pixels of the block are one mask step
apart in the opened counterexample mask. -/
theorem blockStep' {x1 y1 x2 y2 : ℕ} (hx1 : 1 ≤ x1) (hx1' : x1 ≤ 32)
    (hy1 : 1 ≤ y1) (hy1' : y1 ≤ 32)
    (hx2 : 1 ≤ x2) (hx2' : x2 ≤ 32) (hy2 : 1 ≤ y2) (hy2' : y2 ≤ 32)
    (hdx : x1 ≤ x2 + 1 ∧ x2 ≤ x1 + 1) (hdy : y1 ≤ y2 + 1 ∧ y2 ≤ y1 + 1)
    (hne : ¬ (x1 = x2 ∧ y1 = y2)) :
    maskStep openedC3 34 34 (y1 * 34 + x1) (y2 * 34 + x2) := by
  have hm1 : (y1 * 34 + x1) % 34 = x1 := pack_mod (by omega)
  have hd1 : (y1 * 34 + x1) / 34 = y1 := pack_div (by omega)
  have hm2 : (y2 * 34 + x2) % 34 = x2 := pack_mod (by omega)
  have hd2 : (y2 * 34 + x2) / 34 = y2 := pack_div (by omega)
  have hB1 : inBlockB (y1 * 34 + x1) := by unfold inBlockB; rw [hm1, hd1]; exact ⟨hx1, hx1', hy1, hy1'⟩
  have hB2 : inBlockB (y2 * 34 + x2) := by unfold inBlockB; rw [hm2, hd2]; exact ⟨hx2, hx2', hy2, hy2'⟩
  refine ⟨by omega, by omega, ?_, ?_, ?_, ?_, by omega⟩
  · rw [openedC3_bit, decide_eq_true (show y1 * 34 + x1 < 1156 by omega),
      decide_eq_true hB1]
    rfl
  · rw [openedC3_bit, decide_eq_true (show y2 * 34 + x2 < 1156 by omega),
      decide_eq_true hB2]
    rfl
  · rw [hm1, hm2]; omega
  · rw [hd1, hd2]; omega

/-- Pixel 35 (coordinates (1,1)) reaches the whole first column of the
block. -/
theorem blockConn_col : ∀ d : ℕ, d ≤ 31 →
    maskConn openedC3 34 34 35 ((1 + d) * 34 + 1)
  | 0, _ => by
      rw [show (1 + 0) * 34 + 1 = 35 from rfl]
      exact Relation.ReflTransGen.refl
  | d + 1, hd => by
      refine Relation.ReflTransGen.tail (blockConn_col d (by omega)) ?_
      exact blockStep' (by omega) (by omega) (by omega) (by omega) (by omega)
        (by omega) (by omega) (by omega) ⟨by omega, by omega⟩
        ⟨by omega, by omega⟩ (by omega)

/-- Pixel 35 reaches every pixel of the block, row by row. -/
theorem blockConn_row : ∀ e : ℕ, e ≤ 31 → ∀ y : ℕ, 1 ≤ y → y ≤ 32 →
    maskConn openedC3 34 34 35 (y * 34 + (1 + e))
  | 0, _, y, hy1, hy2 => by
      have hc := blockConn_col (y - 1) (by omega)
      rw [show (1 + (y - 1)) * 34 + 1 = y * 34 + (1 + 0) from by omega] at hc
      exact hc
  | e + 1, he, y, hy1, hy2 => by
      refine Relation.ReflTransGen.tail (blockConn_row e (by omega) y hy1 hy2) ?_
      exact blockStep' (by omega) (by omega) (by omega) (by omega) (by omega)
        (by omega) (by omega) (by omega) ⟨by omega, by omega⟩
        ⟨by omega, by omega⟩ (by omega)

/-- Pixel 35 reaches every pixel of the block. -/
theorem blockConn {i : ℕ} (hB : inBlockB i) : maskConn openedC3 34 34 35 i := by
  obtain ⟨hx1, hx2, hy1, hy2⟩ := hB
  have hc := blockConn_row (i % 34 - 1) (by omega) (i / 34) hy1 hy2
  rw [show (i / 34) * 34 + (1 + (i % 34 - 1)) = i from by omega] at hc
  exact hc

/-! ## Bounding-box fold lemmas -/

theorem foldl_min_le_init (f : ℕ → ℕ) :
    ∀ (l : List ℕ) (a : ℕ), l.foldl (fun b i => Nat.min b (f i)) a ≤ a
  | [], a => le_refl a
  | i :: t, a => by
      rw [List.foldl_cons]
      exact le_trans (foldl_min_le_init f t _) (Nat.min_le_left _ _)

theorem foldl_min_le (f : ℕ → ℕ) :
    ∀ (l : List ℕ) (a x : ℕ), x ∈ l →
      l.foldl (fun b i => Nat.min b (f i)) a ≤ f x
  | i :: t, a, x, hx => by
      rw [List.foldl_cons]
      rcases List.mem_cons.mp hx with rfl | ht
      · exact le_trans (foldl_min_le_init f t _) (Nat.min_le_right _ _)
      · exact foldl_min_le f t _ x ht

theorem le_foldl_min (f : ℕ → ℕ) (c : ℕ) :
    ∀ (l : List ℕ) (a : ℕ), c ≤ a → (∀ x ∈ l, c ≤ f x) →
      c ≤ l.foldl (fun b i => Nat.min b (f i)) a
  | [], a, ha, _ => ha
  | i :: t, a, ha, hall => by
      rw [List.foldl_cons]
      exact le_foldl_min f c t _ (le_min ha (hall i (List.mem_cons_self _ _)))
        (fun x hx => hall x (List.mem_cons_of_mem _ hx))

theorem foldl_max_ge_init (f : ℕ → ℕ) :
    ∀ (l : List ℕ) (a : ℕ), a ≤ l.foldl (fun b i => Nat.max b (f i)) a
  | [], a => le_refl a
  | i :: t, a => by
      rw [List.foldl_cons]
      exact le_trans (Nat.le_max_left _ _) (foldl_max_ge_init f t _)

theorem foldl_max_ge (f : ℕ → ℕ) :
    ∀ (l : List ℕ) (a x : ℕ), x ∈ l →
      f x ≤ l.foldl (fun b i => Nat.max b (f i)) a
  | i :: t, a, x, hx => by
      rw [List.foldl_cons]
      rcases List.mem_cons.mp hx with rfl | ht
      · exact le_trans (Nat.le_max_right _ _) (foldl_max_ge_init f t _)
      · exact foldl_max_ge f t _ x ht

theorem foldl_max_le (f : ℕ → ℕ) (c : ℕ) :
    ∀ (l : List ℕ) (a : ℕ), a ≤ c → (∀ x ∈ l, f x ≤ c) →
      l.foldl (fun b i => Nat.max b (f i)) a ≤ c
  | [], a, ha, _ => ha
  | i :: t, a, ha, hall => by
      rw [List.foldl_cons]
      exact foldl_max_le f c t _ (max_le ha (hall i (List.mem_cons_self _ _)))
        (fun x hx => hall x (List.mem_cons_of_mem _ hx))

/-! ## The outer component loop on the counterexample -/

/-- `ccLoop` distributes over list append. -/
theorem ccLoop_append (m w h ms : ℕ) :
    ∀ (l1 l2 : List ℕ) (st : ℕ × ℕ),
      ccLoop m w h ms (l1 ++ l2) st = ccLoop m w h ms l2 (ccLoop m w h ms l1 st)
  | [], _, _ => rfl
  | a :: t, l2, st => by
      rw [List.cons_append]
      rw [show ccLoop m w h ms (a :: (t ++ l2)) st
          = ccLoop m w h ms (t ++ l2) (ccNext m w h ms a st) from rfl]
      rw [ccLoop_append m w h ms t l2 _]
      rfl

/-- Indices whose step condition fails leave the outer loop state fixed. -/
theorem ccLoop_skip (m w h ms : ℕ) :
    ∀ (l : List ℕ) (st : ℕ × ℕ),
      (∀ idx ∈ l, (m.testBit idx && !(st.1.testBit idx)) = false) →
      ccLoop m w h ms l st = st
  | [], _, _ => rfl
  | idx :: rest, st, hall => by
      rw [show ccLoop m w h ms (idx :: rest) st
          = ccLoop m w h ms rest (ccNext m w h ms idx st) from rfl]
      have hc := hall idx (List.mem_cons_self _ _)
      rw [show ccNext m w h ms idx st = st from by
        unfold ccNext
        rw [if_neg (by rw [hc]; exact Bool.false_ne_true)]]
      exact ccLoop_skip m w h ms rest st
        (fun j hj => hall j (List.mem_cons_of_mem _ hj))

/-- The first component search of the counterexample run: the search from
pixel 35 (coordinates (1,1)) over the opened mask, starting unvisited. -/
def dfsC3 : ℕ × List ℕ :=
  dfsLoop openedC3 34 34 (9 * 34 * 34 + 9) [(35 % 34, 35 / 34)] 0 []

/-- `ccNext` evaluated symbolically: when the step condition holds, the
search returns `d`, the component passes the size gate and the aspect
gate, then the step keeps the search's visited set and marks the
component into the result. -/
theorem ccNext_eval (m w h ms idx : ℕ) (st : ℕ × ℕ) (d : ℕ × List ℕ)
    (hdfs : dfsLoop m w h (9 * w * h + 9) [(idx % w, idx / w)] st.1 [] = d)
    (hcond : (m.testBit idx && !(st.1.testBit idx)) = true)
    (hlen : ms ≤ d.2.length)
    (haspect : 3/10 < ((d.2.foldl (fun a i => Nat.max a (i % w)) 0
          - d.2.foldl (fun a i => Nat.min a (i % w)) w + 1 : ℕ) : ℚ)
        / ((d.2.foldl (fun a i => Nat.max a (i / w)) 0
          - d.2.foldl (fun a i => Nat.min a (i / w)) h + 1 : ℕ) : ℚ) ∧
      ((d.2.foldl (fun a i => Nat.max a (i % w)) 0
          - d.2.foldl (fun a i => Nat.min a (i % w)) w + 1 : ℕ) : ℚ)
        / ((d.2.foldl (fun a i => Nat.max a (i / w)) 0
          - d.2.foldl (fun a i => Nat.min a (i / w)) h + 1 : ℕ) : ℚ) < 10) :
    (ccNext m w h ms idx st).1 = d.1 ∧
    (ccNext m w h ms idx st).2 = d.2.foldl (fun r i => r ||| 2 ^ i) st.2 := by
  have he : ccNext m w h ms idx st
      = (d.1, d.2.foldl (fun r i => r ||| 2 ^ i) st.2) := by
    unfold ccNext
    rw [if_pos hcond]
    dsimp only
    rw [hdfs]
    rw [if_pos hlen]
    rw [if_pos haspect]
  exact ⟨by rw [he], by rw [he]⟩

set_option maxRecDepth 10000 in
/-- The outer component step at pixel 35 discovers the whole 1024-pixel
block, passes the size and aspect gates, marks exactly the opened mask,
and leaves every mask-true pixel visited. -/
theorem ccNext35_eq :
    (ccNext openedC3 34 34 1000 35 (0, 0)).2 = openedC3 ∧
    (∀ j, openedC3.testBit j = true →
      (ccNext openedC3 34 34 1000 35 (0, 0)).1.testBit j = true) := by
  have hfuel : ([(35 % 34, 35 / 34)] : List (ℕ × ℕ)).length +
      9 * unvisitedCount 34 34 0 ≤ 9 * 34 * 34 + 9 := by
    have huc : unvisitedCount 34 34 0 = 1156 := by
      unfold unvisitedCount
      rw [Finset.filter_true_of_mem (fun x _ => Nat.zero_testBit x)]
      rw [Finset.card_range]
    rw [huc]
    decide
  have hstack0 : ∀ p ∈ ([(35 % 34, 35 / 34)] : List (ℕ × ℕ)),
      p.1 < 34 ∧ p.2 < 34 := by
    intro p hp
    rw [List.mem_singleton.mp hp]
    exact ⟨by decide, by decide⟩
  have hclosed0 : dfsClosed openedC3 34 34 0 [(35 % 34, 35 / 34)] := by
    intro a b ha _
    rw [Nat.zero_testBit] at ha
    exact absurd ha Bool.false_ne_true
  have hcompl : dfsClosed openedC3 34 34 dfsC3.1 [] ∧
      (∀ p ∈ ([(35 % 34, 35 / 34)] : List (ℕ × ℕ)),
        openedC3.testBit (p.2 * 34 + p.1) = true →
        dfsC3.1.testBit (p.2 * 34 + p.1) = true) :=
    dfsLoop_complete openedC3 34 34 (9 * 34 * 34 + 9)
      [(35 % 34, 35 / 34)] 0 [] hfuel hstack0 hclosed0
  have hsound : (∀ i ∈ dfsC3.2, openedC3.testBit i = true ∧
      maskConn openedC3 34 34 35 i ∧ i < 34 * 34 ∧
      dfsC3.1.testBit i = true) ∧ dfsC3.2.Nodup :=
    dfsLoop_sound openedC3 34 34 35 (9 * 34 * 34 + 9)
      [(35 % 34, 35 / 34)] 0 []
      (by
        intro p hp
        rw [List.mem_singleton.mp hp]
        exact ⟨by decide, by decide, fun _ => Relation.ReflTransGen.refl⟩)
      (fun i hi => absurd hi (List.not_mem_nil i))
      List.nodup_nil
  have hvisited : ∀ i, maskConn openedC3 34 34 35 i →
      dfsC3.1.testBit i = true := by
    intro i hconn
    induction hconn with
    | refl =>
        have h0 := hcompl.2 (35 % 34, 35 / 34) (List.mem_singleton_self _)
          (by rw [openedC3_bit]; decide)
        rw [show ((35 % 34, 35 / 34) : ℕ × ℕ).2 * 34 +
            ((35 % 34, 35 / 34) : ℕ × ℕ).1 = 35 from rfl] at h0
        exact h0
    | tail hab hbc ih =>
        rcases hcompl.1 _ _ ih hbc with hv | hm
        · exact hv
        · exact absurd hm (List.not_mem_nil _)
  have hmem : ∀ i, inBlockB i → i ∈ dfsC3.2 := by
    intro i hB
    have hnew : dfsC3.1.testBit i = true → (0 : ℕ).testBit i = true ∨ i ∈ dfsC3.2 :=
      dfsLoop_new_in_comp openedC3 34 34 (9 * 34 * 34 + 9)
        [(35 % 34, 35 / 34)] 0 [] i
    rcases hnew (hvisited i (blockConn hB)) with h0 | hc
    · rw [Nat.zero_testBit] at h0
      exact absurd h0 Bool.false_ne_true
    · exact hc
  have hcomp : ∀ i ∈ dfsC3.2, i < 1156 ∧ inBlockB i ∧
      dfsC3.1.testBit i = true := by
    intro i hi
    obtain ⟨hmask, _, _, hvis⟩ := hsound.1 i hi
    rw [openedC3_bit, Bool.and_eq_true, decide_eq_true_eq, decide_eq_true_eq] at hmask
    exact ⟨hmask.1, hmask.2, hvis⟩
  have htf : dfsC3.2.toFinset = (Finset.range 1156).filter (fun i => inBlockB i) := by
    apply Finset.ext
    intro j
    rw [List.mem_toFinset, Finset.mem_filter, Finset.mem_range]
    constructor
    · intro hj
      obtain ⟨h1, h2, _⟩ := hcomp j hj
      exact ⟨h1, h2⟩
    · intro hj
      exact hmem j hj.2
  have hlen : dfsC3.2.length = 1024 := by
    rw [← List.toFinset_card_of_nodup hsound.2, htf, cardC3block]
  have hres : dfsC3.2.foldl (fun r i => r ||| 2 ^ i) 0 = openedC3 := by
    apply Nat.eq_of_testBit_eq
    intro j
    rw [Bool.eq_iff_iff, testBit_foldl_or, openedC3_bit]
    rw [Bool.and_eq_true, decide_eq_true_eq, decide_eq_true_eq]
    constructor
    · rintro (h0 | hj)
      · rw [Nat.zero_testBit] at h0
        exact absurd h0 Bool.false_ne_true
      · obtain ⟨h1, h2, _⟩ := hcomp j hj
        exact ⟨h1, h2⟩
    · intro hj
      exact Or.inr (hmem j hj.2)
  have h35mem : 35 ∈ dfsC3.2 := hmem 35 (by decide)
  have h66mem : 66 ∈ dfsC3.2 := hmem 66 (by decide)
  have h1089mem : 1089 ∈ dfsC3.2 := hmem 1089 (by decide)
  have hminx : dfsC3.2.foldl (fun a i => Nat.min a (i % 34)) 34 = 1 :=
    le_antisymm (foldl_min_le (fun i => i % 34) dfsC3.2 34 35 h35mem)
      (le_foldl_min (fun i => i % 34) 1 dfsC3.2 34 (by decide)
        (fun x hx => (hcomp x hx).2.1.1))
  have hmaxx : dfsC3.2.foldl (fun a i => Nat.max a (i % 34)) 0 = 32 :=
    le_antisymm (foldl_max_le (fun i => i % 34) 32 dfsC3.2 0 (by decide)
        (fun x hx => (hcomp x hx).2.1.2.1))
      (foldl_max_ge (fun i => i % 34) dfsC3.2 0 66 h66mem)
  have hminy : dfsC3.2.foldl (fun a i => Nat.min a (i / 34)) 34 = 1 :=
    le_antisymm (foldl_min_le (fun i => i / 34) dfsC3.2 34 35 h35mem)
      (le_foldl_min (fun i => i / 34) 1 dfsC3.2 34 (by decide)
        (fun x hx => (hcomp x hx).2.1.2.2.1))
  have hmaxy : dfsC3.2.foldl (fun a i => Nat.max a (i / 34)) 0 = 32 :=
    le_antisymm (foldl_max_le (fun i => i / 34) 32 dfsC3.2 0 (by decide)
        (fun x hx => (hcomp x hx).2.1.2.2.2))
      (foldl_max_ge (fun i => i / 34) dfsC3.2 0 1089 h1089mem)
  have hccA : (ccNext openedC3 34 34 1000 35 (0, 0)).1 = dfsC3.1 ∧
      (ccNext openedC3 34 34 1000 35 (0, 0)).2
        = dfsC3.2.foldl (fun r i => r ||| 2 ^ i) ((0, 0) : ℕ × ℕ).2 :=
    ccNext_eval openedC3 34 34 1000 35 (0, 0) dfsC3 rfl
      (by rw [openedC3_bit]; decide)
      (by rw [hlen]; norm_num)
      (by rw [hminx, hmaxx, hminy, hmaxy]; norm_num)
  have hfold0 : dfsC3.2.foldl (fun r i => r ||| 2 ^ i) (((0, 0) : ℕ × ℕ).2)
      = dfsC3.2.foldl (fun r i => r ||| 2 ^ i) 0 := by
    rw [show ((0, 0) : ℕ × ℕ).2 = 0 from rfl]
  constructor
  · exact (hccA.2.trans hfold0).trans hres
  · intro j hj
    rw [hccA.1]
    rw [openedC3_bit, Bool.and_eq_true, decide_eq_true_eq, decide_eq_true_eq] at hj
    exact hvisited j (blockConn hj.2)

/-- `filter_connected_components` evaluated symbolically: when the pixel
range splits as a skipped prefix, one active pixel, and a skipped suffix,
the result is the active pixel's outer step. -/
theorem filter_ccLoop_eq (m w h ms idx : ℕ) (l1 l2 : List ℕ)
    (hsplit : List.range (h * w) = l1 ++ [idx] ++ l2)
    (hl1 : ccLoop m w h ms l1 (0, 0) = (0, 0))
    (hskip : ∀ j ∈ l2,
      (m.testBit j && !((ccNext m w h ms idx (0, 0)).1.testBit j)) = false) :
    filter_connected_components m w h ms = (ccNext m w h ms idx (0, 0)).2 := by
  unfold filter_connected_components
  rw [hsplit, ccLoop_append, ccLoop_append, hl1]
  rw [show ccLoop m w h ms [idx] (0, 0) = ccNext m w h ms idx (0, 0) from rfl]
  rw [ccLoop_skip m w h ms l2 (ccNext m w h ms idx (0, 0)) hskip]

/-- The component filter keeps the whole opened counterexample mask: its
single component has 1024 pixels (above the 1000 minimum) and aspect
ratio 1. -/
theorem blockFilterEq :
    filter_connected_components openedC3 34 34 1000 = openedC3 := by
  have h1 : List.range' 0 35 ++ List.range' 35 1121 = List.range' 0 1156 := by
    have happ := List.range'_append_1 0 35 1121
    norm_num at happ
    exact happ
  have h2 : List.range' 35 1 ++ List.range' 36 1120 = List.range' 35 1121 := by
    have happ := List.range'_append_1 35 1 1120
    norm_num at happ
    exact happ
  have hsplit : List.range (34 * 34)
      = List.range' 0 35 ++ [35] ++ List.range' 36 1120 := by
    rw [show (34 * 34 : ℕ) = 1156 from rfl, List.range_eq_range']
    rw [← h1, ← h2]
    rw [show List.range' 35 1 = [35] from rfl, ← List.append_assoc]
  have hpre : ccLoop openedC3 34 34 1000 (List.range' 0 35) (0, 0) = (0, 0) := by
    apply ccLoop_skip
    intro idx hidx
    obtain ⟨i, hilt, heq⟩ := List.mem_range'.mp hidx
    have hnB : ¬ inBlockB idx := by unfold inBlockB; omega
    rw [show ((0, 0) : ℕ × ℕ).1 = 0 from rfl, openedC3_bit, decide_eq_false hnB,
      Bool.and_false, Bool.false_and]
  have hskip2 : ∀ idx, (openedC3.testBit idx &&
      !((ccNext openedC3 34 34 1000 35 (0, 0)).1.testBit idx)) = false := by
    intro idx
    cases hb : openedC3.testBit idx with
    | false => rfl
    | true =>
        rw [ccNext35_eq.2 idx hb]
        rfl
  exact (filter_ccLoop_eq openedC3 34 34 1000 35 (List.range' 0 35)
    (List.range' 36 1120) hsplit hpre (fun j _ => hskip2 j)).trans ccNext35_eq.1

/-- The logical point cloud that survives filtering on the counterexample:
one point per block pixel. -/
def ptsC3 : List (ℚ × ℚ) :=
  (List.range (34 * 34)).filterMap fun idx =>
    if decide (idx < 1156) && decide (inBlockB idx) then
      some (logicalX cfgC3 34 (idx % 34) id id, logicalY cfgC3 34 (idx / 34) id id)
    else none

/-- The single color pass of the counterexample run, with the mask stages
replaced by their characterisations. -/
theorem colorPassC3 : colorPass imgC3 cfgC3 id id [] "blue" = [("blue", ptsC3)] := by
  unfold colorPass
  rw [show get_color_ranges.lookup (rustToLowercase "blue") = some rangeBlue from by
    decide]
  dsimp only
  rw [show imgC3.width = 34 from rfl, show imgC3.height = 34 from rfl]
  rw [show Nat.max (34 * 34 % 2 ^ 32 / 1000) 1000 = 1000 from by decide]
  rw [show morphological_open (maskBits imgC3 rangeBlue) 34 34 = openedC3 from rfl]
  rw [blockFilterEq]
  rw [show (fun idx => if openedC3.testBit idx then
        some (logicalX cfgC3 34 (idx % 34) id id, logicalY cfgC3 34 (idx / 34) id id)
      else none)
      = (fun idx => if decide (idx < 1156) && decide (inBlockB idx) then
        some (logicalX cfgC3 34 (idx % 34) id id, logicalY cfgC3 34 (idx / 34) id id)
      else none) from funext fun idx => by rw [openedC3_bit]]
  rfl

/-- The curves of the counterexample run, reduced to the fold over the
explicit point cloud. -/
theorem extractC3_curves :
    (extract_curves id id imgC3 ["blue"] cfgC3 id id).curves
      = (([(("blue" : String), ptsC3)]).foldl (curveStep id cfgC3) ([], [])).1 := by
  rw [extract_curves_curves]
  rw [show (["blue"] : List String).foldl (colorPass imgC3 cfgC3 id id) []
      = colorPass imgC3 cfgC3 id id [] "blue" from rfl]
  rw [colorPassC3]
  rfl

set_option maxRecDepth 40000 in
set_option maxHeartbeats 4000000 in
set_option exponentiation.threshold 10000 in
/-- Counterexample to C3 as stated: with `x_scale = -1` (the claim allows
any sign), the first returned curve has more than one point and its point
at index 1 has a strictly smaller x than the point at index 0 — the points
are sorted in descending x, refuting "for all i < j, points[i].x ≤
points[j].x". -/
theorem claim_C3_counterexample :
    1 < ((extract_curves id id imgC3 ["blue"] cfgC3 id
        id).curves.getD 0 junkCurve).points.length ∧
    (((extract_curves id id imgC3 ["blue"] cfgC3 id
        id).curves.getD 0 junkCurve).points.getD 1 junkPoint).x <
      (((extract_curves id id imgC3 ["blue"] cfgC3 id
        id).curves.getD 0 junkCurve).points.getD 0 junkPoint).x := by
  rw [extractC3_curves]
  decide
